import Mathlib

/-!
# Radix tree (`src/trees/radix_tree/radix_tree.cc`)

A shallow embedding of the class `RadixTree<std::string, int>` and of its
static string helpers, followed by theorems about them.

Modelling conventions.

* `std::string` is `List Char` (`Key`); `T_Value = int` is `Int` (`Value`).
  No arithmetic is performed on values, so their width plays no role.
* `std::size_t` positions are `Nat`.  Every function is used by the class only
  with start positions inside the string, where the unsigned subtractions of
  the source (`str.size() - str_start_pos`) do not wrap; the theorems about the
  helpers carry that range as a hypothesis.
* A `Node` owns its children (`new Node`, never shared), so the pointer graph
  is the inductive tree below; an in-place update through a `Node*` is a
  functional update of the path from the root to that node.
* A `const Node*` result is `Option Node`: `none` is `nullptr`, `some n` is the
  node reached (with the subtree it owns).
* Loops whose trip count is not structural carry a fuel argument; running out
  of fuel is reported as `none`, except in the two character loops, whose fuel
  is their exact trip bound.
-/

/-- The key type `T_Key = std::string`. -/
abbrev Key := List Char

/-- The value type `T_Value = int`; `T_Value()` is `0`. -/
abbrev Value := Int

/-- The class `Node::Edge`: a label `part` and the owned destination node `dest`. -/
structure Edge (N : Type) where
  part : Key
  dest : N

/-- The class `Node`: `children`, `is_leaf` (default `false`), `value` (default `0`). -/
inductive Node where
  | mk (children : List (Edge Node)) (is_leaf : Bool) (value : Value) : Node

/-- Field `children`. -/
def Node.children : Node → List (Edge Node)
  | .mk c _ _ => c

/-- Field `is_leaf`. -/
def Node.is_leaf : Node → Bool
  | .mk _ l _ => l

/-- Field `value`. -/
def Node.value : Node → Value
  | .mk _ _ v => v

/-- A default-constructed node, `new Node` / `Node root`. -/
def Node.fresh : Node := Node.mk [] false 0

mutual
/-- Number of nodes of the subtree owned by a node (used only to bound loops). -/
def Node.size : Node → Nat
  | .mk cs _ _ => 1 + Node.sizeEdges cs
/-- Number of nodes owned through a list of edges. -/
def Node.sizeEdges : List (Edge Node) → Nat
  | [] => 0
  | e :: rest => e.dest.size + Node.sizeEdges rest
end

/-- The expression `str[i]` of `std::string` (`str[str.size()]` is the NUL character). -/
def char_at (str : Key) (i : Nat) : Char := str.getD i (Char.ofNat 0)

/-- The call `str.substr(pos, len)`: at most `len` characters from `pos` on. -/
def substr (str : Key) (pos len : Nat) : Key := (str.drop pos).take len

/-- The call `str.substr(pos)`: everything from `pos` on. -/
def substr_from (str : Key) (pos : Nat) : Key := str.drop pos

/-- The static `has_prefix`: `str.compare(str_start_pos, prefix.size(), prefix, 0, npos) == 0`,
that is, the clamped substring of `str` equals the whole of `pfx`. -/
def has_prefix (str : Key) (str_start_pos : Nat) (pfx : Key) : Bool :=
  decide (substr str str_start_pos pfx.length = substr_from pfx 0)

/-- The `for (; i < end; ++i)` loop of `prefix_matches`; `j` is `prefix_iter`.
The fuel is the trip bound `end - i`. -/
def prefix_matches_loop (str pfx : Key) (end_pos : Nat) : Nat → Nat → Nat → Bool
  | 0, _, _ => true
  | fuel + 1, i, j =>
    if i < end_pos then
      if char_at str i ≠ char_at pfx j then false
      else prefix_matches_loop str pfx end_pos fuel (i + 1) (j + 1)
    else true

/-- The static `prefix_matches`. -/
def prefix_matches (str : Key) (str_start_pos : Nat) (pfx : Key) (prefix_start_pos : Nat) : Bool :=
  let str_len := str.length - str_start_pos
  let prefix_len := pfx.length - prefix_start_pos
  if prefix_len > str_len then false
  else
    let len := min str_len prefix_len
    let end_pos := str_start_pos + len
    prefix_matches_loop str pfx end_pos len str_start_pos prefix_start_pos

/-- The `while (i_str < str_end)` loop of `common_prefix`; returns the final `i_str`.
The fuel is the trip bound `str_end - i_str`. -/
def common_prefix_loop (str pfx : Key) (str_end : Nat) : Nat → Nat → Nat → Nat
  | 0, i_str, _ => i_str
  | fuel + 1, i_str, i_prefix =>
    if i_str < str_end then
      if char_at str i_str ≠ char_at pfx i_prefix then i_str
      else common_prefix_loop str pfx str_end fuel (i_str + 1) ( i_prefix + 1)
    else i_str

/-- The static `common_prefix`. -/
def common_prefix (str : Key) (str_start_pos : Nat) (pfx : Key) (prefix_start_pos : Nat) : Nat :=
  let str_len := str.length - str_start_pos
  let prefix_len := pfx.length - prefix_start_pos
  let len := min str_len prefix_len
  let str_end := str_start_pos + len
  common_prefix_loop str pfx str_end len str_start_pos prefix_start_pos - str_start_pos

/-- The tail of `find_node`, after its `while` loop, at the node and position reached. -/
def find_node_result (key : Key) (leaf_only : Bool) (node : Node) (key_pos : Nat) : Option Node :=
  if key_pos < key.length then none
  else if !leaf_only || node.is_leaf then some node else none

mutual
/-- The `while (key_pos < key_size)` loop of `find_node` from the state `(node, key_pos)`,
followed by the tail of the function. -/
def find_node_walk (key : Key) (leaf_only : Bool) : Node → Nat → Option Node
  | .mk children is_leaf value, key_pos =>
    if key_pos < key.length then find_node_scan key leaf_only children key_pos
    else find_node_result key leaf_only (.mk children is_leaf value) key_pos
/-- The `for (const auto& edge : node->children)` loop of `find_node`: the first edge whose
part passes `prefix_matches` is followed; with none, `next` stays null and the result is null. -/
def find_node_scan (key : Key) (leaf_only : Bool) : List (Edge Node) → Nat → Option Node
  | [], _ => none
  | edge :: rest, key_pos =>
    if !prefix_matches key key_pos edge.part 0 then find_node_scan key leaf_only rest key_pos
    else find_node_walk key leaf_only edge.dest (key_pos + edge.part.length)
end

/-- The `for (auto& edge : node->children)` loop of `insert`.  `none`: no edge was taken
(`next` stays null).  `some (i, edge, key_pos)`: the loop broke at child `i`, which it leaves
as `edge` (unchanged when its part was a prefix of the remaining key, split otherwise), with
`next = edge.dest` and the advanced `key_pos`. -/
def insert_scan (key : Key) (key_pos : Nat) : List (Edge Node) → Option (Nat × Edge Node × Nat)
  | [] => none
  | edge :: rest =>
    if has_prefix key key_pos edge.part then
      some (0, edge, key_pos + edge.part.length)
    else
      let prefix_len := common_prefix edge.part 0 key key_pos
      if prefix_len ≠ 0 then
        let pfx := substr key 0 prefix_len
        let suffix_part := substr_from edge.part prefix_len
        let extra_node := Node.mk [⟨suffix_part, edge.dest⟩] false 0
        some (0, ⟨pfx, extra_node⟩, key_pos + prefix_len)
      else
        match insert_scan key key_pos rest with
        | none => none
        | some (i, e, p) => some (i + 1, e, p)

/-- The tail of `insert`, after its `while` loop, at the node and position reached: nothing
when `key_pos >= key_size`, else a new leaf edge for the remaining characters. -/
def insert_finish (key : Key) (value : Value) (node : Node) (key_pos : Nat) : Node :=
  if key_pos > key.length then node
  else if key_pos = key.length then node
  else
    let suffix := substr_from key key_pos
    Node.mk (node.children ++ [⟨suffix, Node.mk [] true value⟩]) node.is_leaf node.value

/-- The `while (key_pos < key_size)` loop of `insert` from the state `(node, key_pos)`,
followed by the tail of the function; the result is `node` as the call leaves it.
`none` only when the fuel runs out. -/
def insert_walk (key : Key) (value : Value) : Nat → Node → Nat → Option Node
  | 0, _, _ => none
  | fuel + 1, node, key_pos =>
    if key_pos < key.length then
      match insert_scan key key_pos node.children with
      | none => some (insert_finish key value node key_pos)
      | some (i, edge, key_pos1) =>
        match insert_walk key value fuel edge.dest key_pos1 with
        | none => none
        | some next => some (Node.mk (node.children.set i ⟨edge.part, next⟩) node.is_leaf node.value)
    else some (insert_finish key value node key_pos)

/-- The `while (!stack.empty())` loop of `find_candidates`; the head of the list is the top
of the stack.  `none` only when the fuel runs out. -/
def find_candidates_loop : Nat → List (Key × Node) → List Key → Option (List Key)
  | _, [], result => some result
  | 0, _ :: _, _ => none
  | fuel + 1, item :: stack, result =>
    let node := item.2
    let result1 := if node.children.isEmpty then result ++ [item.1] else result
    let stack1 := node.children.foldl (fun st edge => (item.1 ++ edge.part, edge.dest) :: st) stack
    find_candidates_loop fuel stack1 result1

/-- The class `RadixTree<std::string, int>`: its only member is `root`. -/
structure RadixTree where
  root : Node

/-- A default-constructed tree. -/
def RadixTree.empty : RadixTree := ⟨Node.fresh⟩

/-- The private `find_node(key, leaf_only)`. -/
def RadixTree.find_node (t : RadixTree) (key : Key) (leaf_only : Bool) : Option Node :=
  if key.isEmpty then none
  else find_node_walk key leaf_only t.root 0

/-- The public `exists(key)`. -/
def RadixTree.exists (t : RadixTree) (key : Key) : Bool :=
  (t.find_node key true).isSome

/-- The public `get_value(key)`: `node ? node->value : T_Value()`. -/
def RadixTree.get_value (t : RadixTree) (key : Key) : Value :=
  match t.find_node key true with
  | some node => node.value
  | none => 0

/-- The public `find_candidates(prefix)`.  `none` only when the loop's fuel, the number of
nodes below the node found, runs out. -/
def RadixTree.find_candidates (t : RadixTree) (pfx : Key) : Option (List Key) :=
  if pfx.isEmpty then some []
  else
    match t.find_node pfx false with
    | none => some []
    | some prefix_node => find_candidates_loop prefix_node.size [(pfx, prefix_node)] []

/-- The public `insert(key, value)`.  `none` only when the walk's fuel, the key length plus
the number of nodes, runs out. -/
def RadixTree.insert (t : RadixTree) (key : Key) (value : Value) : Option RadixTree :=
  if key.isEmpty then some t
  else (insert_walk key value (key.length + t.root.size) t.root 0).map RadixTree.mk

/-- A sequence of `insert` calls, in order. -/
def RadixTree.insert_all (t : RadixTree) : List (Key × Value) → Option RadixTree
  | [] => some t
  | (key, value) :: rest => (t.insert key value).bind (fun t1 => RadixTree.insert_all t1 rest)

/-- The four insertions of `main`. -/
def main_inserts : List (Key × Value) :=
  [("banana".toList, 1), ("bandana".toList, 2), ("foo".toList, 3), ("foobar".toList, 4)]

/-- The tree `main` builds, written out. -/
def main_tree : RadixTree :=
  ⟨.mk [⟨"ban".toList, .mk [⟨"ana".toList, .mk [] true 1⟩, ⟨"dana".toList, .mk [] true 2⟩] false 0⟩,
        ⟨"foo".toList, .mk [⟨"bar".toList, .mk [] true 4⟩] true 3⟩] false 0⟩

/-- The two insertions `("banana", 1)`, `("bandana", 2)`. -/
def banana_inserts : List (Key × Value) :=
  [("banana".toList, 1), ("bandana".toList, 2)]

/-- The tree after `banana_inserts`, written out. -/
def banana_tree : RadixTree :=
  ⟨.mk [⟨"ban".toList, .mk [⟨"ana".toList, .mk [] true 1⟩, ⟨"dana".toList, .mk [] true 2⟩] false 0⟩]
    false 0⟩

/-- The tree after `banana_inserts` and then `insert("bandit", 3)`, written out: the split of
the edge `"dana"` below the node for `"ban"` relabels it `"b"`, the first symbol of the key. -/
def bandit_tree : RadixTree :=
  ⟨.mk [⟨"ban".toList, .mk [⟨"ana".toList, .mk [] true 1⟩,
        ⟨"b".toList, .mk [⟨"ana".toList, .mk [] true 2⟩, ⟨"it".toList, .mk [] true 3⟩] false 0⟩]
      false 0⟩] false 0⟩

/-- The tree after `insert("foobar", 4)` alone, written out. -/
def foobar_tree : RadixTree :=
  ⟨.mk [⟨"foobar".toList, .mk [] true 4⟩] false 0⟩

/-- The tree after `insert("foobar", 4)` and then an `insert("foo", _)`, written out: the node
for `"foo"` is the non-leaf node of the split. -/
def foobar_split_tree : RadixTree :=
  ⟨.mk [⟨"foo".toList, .mk [⟨"bar".toList, .mk [] true 4⟩] false 0⟩] false 0⟩

/-- Downward paths: `DownPath n labels m` when `m` is reached from `n` along child edges whose
parts, in order, concatenate to `labels`. -/
inductive DownPath : Node → Key → Node → Prop
  | here (n : Node) : DownPath n [] n
  | step (n : Node) (e : Edge Node) (labels : Key) (m : Node) :
      e ∈ n.children → DownPath e.dest labels m → DownPath n (e.part ++ labels) m

/-- Number of nodes owned by the items of the stack of `find_candidates`. -/
def stack_size (stack : List (Key × Node)) : Nat :=
  (stack.map (fun item => item.2.size)).sum

/-- The values `key_pos` takes during `insert`'s walk from the state `(node, key_pos)`: its
value at each test of the `while` condition, the last one being the value the tail of the
function sees.  Same loop as `insert_walk`; `none` only when the fuel runs out. -/
def insert_walk_positions (key : Key) : Nat → Node → Nat → Option (List Nat)
  | 0, _, _ => none
  | fuel + 1, node, key_pos =>
    if key_pos < key.length then
      match insert_scan key key_pos node.children with
      | none => some [key_pos]
      | some (_, edge, key_pos1) =>
        match insert_walk_positions key fuel edge.dest key_pos1 with
        | none => none
        | some rest => some (key_pos :: rest)
    else some [key_pos]

/-- The values `key_pos` takes during a call `insert(key, _)`; none for the empty key, which
returns before the walk. -/
def RadixTree.insert_positions (t : RadixTree) (key : Key) : Option (List Nat) :=
  if key.isEmpty then some []
  else insert_walk_positions key (key.length + t.root.size) t.root 0

mutual
/-- The values `key_pos` takes during `find_node`'s walk from the state `(node, key_pos)`:
its value at each test of the `while` condition.  Same loop as `find_node_walk`. -/
def find_node_walk_positions (key : Key) : Node → Nat → List Nat
  | .mk children _ _, key_pos =>
    key_pos :: (if key_pos < key.length then find_node_scan_positions key children key_pos else [])
/-- The edge loop of `find_node`, for `find_node_walk_positions`. -/
def find_node_scan_positions (key : Key) : List (Edge Node) → Nat → List Nat
  | [], _ => []
  | edge :: rest, key_pos =>
    if !prefix_matches key key_pos edge.part 0 then find_node_scan_positions key rest key_pos
    else find_node_walk_positions key edge.dest (key_pos + edge.part.length)
end

/-- The values `key_pos` takes during a call `find_node(key, _)`; none for the empty key. -/
def RadixTree.find_node_positions (t : RadixTree) (key : Key) : List Nat :=
  if key.isEmpty then [] else find_node_walk_positions key t.root 0

mutual
/-- The values held by the leaf nodes (`is_leaf` set) of the subtree of a node, in preorder. -/
def Node.leaf_values : Node → List Value
  | .mk cs l x => (if l then [x] else []) ++ Node.leaf_values_edges cs
/-- The values held by the leaf nodes below a list of edges. -/
def Node.leaf_values_edges : List (Edge Node) → List Value
  | [] => []
  | e :: rest => e.dest.leaf_values ++ Node.leaf_values_edges rest
end

/-- Every edge label of the subtree of a node is non-empty. -/
inductive LabelsNonEmpty : Node → Prop
  | mk (cs : List (Edge Node)) (l : Bool) (x : Value) :
      (∀ e, e ∈ cs → e.part ≠ []) → (∀ e, e ∈ cs → LabelsNonEmpty e.dest) →
      LabelsNonEmpty (.mk cs l x)

/-- At every node of the subtree, any two distinct outgoing edges have labels that differ at
their first symbol. -/
inductive SiblingsDisjoint : Node → Prop
  | mk (cs : List (Edge Node)) (l : Bool) (x : Value) :
      cs.Pairwise (fun e1 e2 => e1.part.head? ≠ e2.part.head?) →
      (∀ e, e ∈ cs → SiblingsDisjoint e.dest) → SiblingsDisjoint (.mk cs l x)

/-- What a call `insert(_, v)` may do to the subtree of a node: `Frame v old new` when `new`
is `old` with every node of `old` in place with its `is_leaf` and `value`, up to new leaves
holding `v` appended as last children and new non-leaf nodes with the default value put
between a node and one of its children. -/
inductive Frame (v : Value) : Node → Node → Prop
  | same (n : Node) : Frame v n n
  | add_leaf (cs : List (Edge Node)) (l : Bool) (x : Value) (s : Key) :
      Frame v (.mk cs l x) (.mk (cs ++ [⟨s, .mk [] true v⟩]) l x)
  | child (cs : List (Edge Node)) (l : Bool) (x : Value) (i : Nat) (e : Edge Node) (s : Key)
      (d : Node) : cs[i]? = some e → Frame v e.dest d →
      Frame v (.mk cs l x) (.mk (cs.set i ⟨s, d⟩) l x)
  | split (s : Key) (d d1 : Node) : Frame v (.mk [⟨s, d⟩] false 0) d1 → Frame v d d1

/-- The four insertions `("abx", 1)`, `("ac", 2)`, `("aa", 3)`, `("aby", 4)`. -/
def clash_inserts : List (Key × Value) :=
  [("abx".toList, 1), ("ac".toList, 2), ("aa".toList, 3), ("aby".toList, 4)]

/-- The node below the root edge `"a"` after `clash_inserts`, written out: its first and
third edge are both labelled `"a"`. -/
def clash_node : Node :=
  .mk [⟨"a".toList, .mk [⟨"x".toList, .mk [] true 1⟩, ⟨"y".toList, .mk [] true 4⟩] false 0⟩,
       ⟨"c".toList, .mk [] true 2⟩,
       ⟨"a".toList, .mk [] true 3⟩] false 0

/-- The tree after `clash_inserts`, written out. -/
def clash_tree : RadixTree :=
  ⟨.mk [⟨"a".toList, clash_node⟩] false 0⟩

/-! ## The scenario of `main` -/

/-- The four insertions of `main` build `main_tree`. -/
theorem main_inserts_build : RadixTree.empty.insert_all main_inserts = some main_tree := rfl

/-- C6. The end-to-end scenario of `main`: the four insertions succeed, and in the tree they
build `"foo"`, `"banana"`, `"bandana"` exist with values 3, 1, 2, `"foop"` and `"ban"` do not
exist and read 0, and `find_candidates("ban")` is the list `["bandana", "banana"]`. -/
theorem main_scenario :
    ∃ t, RadixTree.empty.insert_all main_inserts = some t ∧
      t.exists "foo".toList = true ∧ t.exists "banana".toList = true ∧
      t.exists "bandana".toList = true ∧
      t.get_value "banana".toList = 1 ∧ t.get_value "bandana".toList = 2 ∧
      t.get_value "foo".toList = 3 ∧
      t.exists "foop".toList = false ∧ t.exists "ban".toList = false ∧
      t.get_value "foop".toList = 0 ∧ t.get_value "ban".toList = 0 ∧
      t.find_candidates "ban".toList = some ["bandana".toList, "banana".toList] ∧
      (∀ c, c ∈ ["bandana".toList, "banana".toList] ↔ c = "banana".toList ∨ c = "bandana".toList) :=
  ⟨main_tree, rfl, by decide, by decide, by decide, by decide, by decide, by decide, by decide,
    by decide, by decide, by decide, by decide, by intro c; simp [or_comm]⟩

/-! ## Defects of `insert` and `find_candidates`, evaluated -/

/-- C1 (defect). On the tree holding only `"foobar"`, the key `"foo"` is not present;
`insert("foo", 3)` splits the edge, ends its walk with `key_pos == key_size` and returns
without marking the node of the split: afterwards `exists("foo")` is false and
`get_value("foo")` is 0, not 3. -/
theorem insert_key_ending_at_split_not_stored :
    RadixTree.empty.insert "foobar".toList 4 = some foobar_tree ∧
    "foo".toList ≠ [] ∧ "foo".toList ≠ "foobar".toList ∧
    foobar_tree.exists "foo".toList = false ∧
    foobar_tree.insert "foo".toList 3 = some foobar_split_tree ∧
    foobar_split_tree.exists "foo".toList = false ∧
    foobar_split_tree.get_value "foo".toList = 0 :=
  ⟨rfl, by decide, by decide, by decide, rfl, by decide, by decide⟩

/-- C2 (defect). After `"banana"` and `"bandana"`, `exists("bandana")` is true with value 2;
`insert("bandit", 3)` splits the edge `"dana"` at position 3 of the key and relabels it with
`key.substr(0, 1) = "b"`: afterwards `exists("bandana")` is false and its value reads 0. -/
theorem insert_split_below_root_loses_key :
    RadixTree.empty.insert_all banana_inserts = some banana_tree ∧
    banana_tree.exists "bandana".toList = true ∧
    banana_tree.get_value "bandana".toList = 2 ∧
    "bandit".toList ≠ "bandana".toList ∧
    banana_tree.insert "bandit".toList 3 = some bandit_tree ∧
    bandit_tree.exists "bandana".toList = false ∧
    bandit_tree.get_value "bandana".toList = 0 :=
  ⟨rfl, by decide, by decide, by decide, rfl, by decide, by decide⟩

/-- C3 (defect). After inserting `"banana"`, `"bandana"`, `"bandit"`, the key `"banbana"`,
which was never inserted, is reported present with value 2. -/
theorem never_inserted_key_reported_present :
    RadixTree.empty.insert_all (banana_inserts ++ [("bandit".toList, 3)]) = some bandit_tree ∧
    "banbana".toList ∉ (banana_inserts ++ [("bandit".toList, 3)]).map Prod.fst ∧
    bandit_tree.exists "banbana".toList = true ∧
    bandit_tree.get_value "banbana".toList = 2 :=
  ⟨rfl, by decide, by decide, by decide⟩

/-- C4 (defect). On the tree holding only `"foobar"`, `insert("foo", 1)` followed by
`insert("foo", 2)` leaves `get_value("foo")` at 0, not at the first value 1. -/
theorem duplicate_insert_of_unstored_key_reads_default :
    RadixTree.empty.insert "foobar".toList 4 = some foobar_tree ∧
    "foo".toList ≠ [] ∧ "foo".toList ≠ "foobar".toList ∧
    foobar_tree.insert "foo".toList 1 = some foobar_split_tree ∧
    foobar_split_tree.insert "foo".toList 2 = some foobar_split_tree ∧
    foobar_split_tree.get_value "foo".toList = 0 :=
  ⟨rfl, by decide, by decide, rfl, rfl, by decide⟩

/-- C5 (defect). In the tree of `main`, `"foo"` is stored and starts with `"foo"`, but
`find_candidates("foo")` is `["foobar"]` only: the node of `"foo"` has a child.  And
`find_candidates("ba")` is empty although `"banana"` and `"bandana"` start with `"ba"`:
the prefix ends inside the edge `"ban"`. -/
theorem find_candidates_omits_stored_keys :
    RadixTree.empty.insert_all main_inserts = some main_tree ∧
    "foo".toList ∈ main_inserts.map Prod.fst ∧ "foo".toList <+: "foo".toList ∧
    main_tree.find_candidates "foo".toList = some ["foobar".toList] ∧
    "banana".toList ∈ main_inserts.map Prod.fst ∧ "ba".toList <+: "banana".toList ∧
    main_tree.find_candidates "ba".toList = some [] :=
  ⟨rfl, by decide, by decide, by decide, by decide, by decide, by decide⟩

/-! ## The empty key and `get_value` -/

/-- C7. The empty key is rejected by every public operation, whatever the tree: `insert`
returns the tree unchanged, `exists` is false, `get_value` is the default 0 and
`find_candidates` is the empty list. -/
theorem empty_key_rejected (t : RadixTree) (v : Value) :
    t.insert [] v = some t ∧ t.exists [] = false ∧ t.get_value [] = 0 ∧
      t.find_candidates [] = some [] := by
  simp [RadixTree.insert, RadixTree.exists, RadixTree.get_value, RadixTree.find_candidates,
    RadixTree.find_node]

/-- The tail of `find_node` with `leaf_only` set returns leaves only. -/
theorem find_node_result_leaf (key : Key) (node : Node) (key_pos : Nat) (m : Node)
    (h : find_node_result key true node key_pos = some m) : m = node ∧ m.is_leaf = true := by
  unfold find_node_result at h
  split at h
  · exact absurd h (by simp)
  · split at h
    · rename_i hl
      have : m = node := (Option.some.inj h).symm
      subst this
      exact ⟨rfl, by simpa using hl⟩
    · exact absurd h (by simp)

mutual
/-- A node returned by the walk of `find_node` with `leaf_only` set is a leaf. -/
theorem find_node_walk_leaf (key : Key) :
    ∀ (node : Node) (key_pos : Nat) (m : Node),
      find_node_walk key true node key_pos = some m → m.is_leaf = true
  | .mk children is_leaf value, key_pos, m, h => by
    unfold find_node_walk at h
    split at h
    · exact find_node_scan_leaf key children key_pos m h
    · exact (find_node_result_leaf key _ key_pos m h).2
/-- A node returned through the edge scan of `find_node` with `leaf_only` set is a leaf. -/
theorem find_node_scan_leaf (key : Key) :
    ∀ (children : List (Edge Node)) (key_pos : Nat) (m : Node),
      find_node_scan key true children key_pos = some m → m.is_leaf = true
  | [], _, m, h => by
    unfold find_node_scan at h
    exact absurd h (by simp)
  | edge :: rest, key_pos, m, h => by
    unfold find_node_scan at h
    split at h
    · exact find_node_scan_leaf key rest key_pos m h
    · exact find_node_walk_leaf key edge.dest (key_pos + edge.part.length) m h
end

/-- C8. `get_value` returns the default on a miss and the found leaf's value on a hit: when
`exists(key)` is false `get_value(key)` is 0, and when it is true `find_node(key, true)`
returns a node, that node is a leaf, and `get_value(key)` is its value. -/
theorem get_value_default_or_leaf_value (t : RadixTree) (key : Key) :
    (t.exists key = false → t.get_value key = 0) ∧
    (t.exists key = true →
      ∃ node, t.find_node key true = some node ∧ node.is_leaf = true ∧
        t.get_value key = node.value) := by
  unfold RadixTree.exists RadixTree.get_value
  cases hf : t.find_node key true with
  | none => simp
  | some node =>
    refine ⟨by simp, fun _ => ⟨node, rfl, ?_, rfl⟩⟩
    unfold RadixTree.find_node at hf
    split at hf
    · exact absurd hf (by simp)
    · exact find_node_walk_leaf key t.root 0 node hf

/-- C8 at concrete inputs: a hit (`"banana"`) and a miss (`"ban"`) in the tree of `main`. -/
theorem get_value_default_or_leaf_value_witness :
    (main_tree.exists "ban".toList = false ∧ main_tree.get_value "ban".toList = 0) ∧
    (main_tree.exists "banana".toList = true ∧
      ∃ node, main_tree.find_node "banana".toList true = some node ∧ node.is_leaf = true ∧
        main_tree.get_value "banana".toList = node.value) :=
  ⟨⟨by decide, (get_value_default_or_leaf_value main_tree "ban".toList).1 (by decide)⟩,
    ⟨by decide, (get_value_default_or_leaf_value main_tree "banana".toList).2 (by decide)⟩⟩

/-! ## The string helpers -/

/-- In range, `str[i]` is the list element. -/
theorem char_at_eq_getElem (str : Key) (i : Nat) (h : i < str.length) :
    str[i]? = some (char_at str i) := by
  simp [char_at, List.getD, List.getElem?_eq_getElem h]

/-- The loop of `common_prefix` with enough fuel: it stops at a position between the start and
`str_end`, every position it passed matched, and it stopped at `str_end` or at a mismatch. -/
theorem common_prefix_loop_spec (str pfx : Key) (str_end : Nat) :
    ∀ (fuel i j : Nat), i ≤ str_end → str_end - i ≤ fuel →
      i ≤ common_prefix_loop str pfx str_end fuel i j ∧
      common_prefix_loop str pfx str_end fuel i j ≤ str_end ∧
      (∀ k, i ≤ k → k < common_prefix_loop str pfx str_end fuel i j →
        char_at str k = char_at pfx (j + (k - i))) ∧
      (common_prefix_loop str pfx str_end fuel i j = str_end ∨
        char_at str (common_prefix_loop str pfx str_end fuel i j) ≠
          char_at pfx (j + (common_prefix_loop str pfx str_end fuel i j - i))) := by
  intro fuel
  induction fuel with
  | zero =>
    intro i j hi hf
    have : i = str_end := by omega
    subst this
    simp only [common_prefix_loop]
    exact ⟨le_refl _, le_refl _, fun k h1 h2 => absurd h2 (by omega), Or.inl trivial⟩
  | succ fuel ih =>
    intro i j hi hf
    simp only [common_prefix_loop]
    by_cases hlt : i < str_end
    · rw [if_pos hlt]
      by_cases hne : char_at str i ≠ char_at pfx j
      · rw [if_pos hne]
        refine ⟨le_refl _, hi, fun k h1 h2 => absurd h2 (by omega), Or.inr ?_⟩
        simpa using hne
      · rw [if_neg hne]
        obtain ⟨h1, h2, h3, h4⟩ := ih (i + 1) (j + 1) (by omega) (by omega)
        refine ⟨by omega, h2, ?_, ?_⟩
        · intro k hk1 hk2
          by_cases hki : k = i
          · subst hki; simpa using hne
          · have := h3 k (by omega) hk2
            rw [this]; congr 1; omega
        · rcases h4 with h4 | h4
          · left; exact h4
          · right
            have e : j + 1 + (common_prefix_loop str pfx str_end fuel (i + 1) (j + 1) - (i + 1))
                = j + (common_prefix_loop str pfx str_end fuel (i + 1) (j + 1) - i) := by omega
            rw [e] at h4; exact h4
    · rw [if_neg hlt]
      have : i = str_end := by omega
      subst this
      exact ⟨le_refl _, le_refl _, fun k h1 h2 => absurd h2 (by omega), Or.inl rfl⟩

/-- C10. `common_prefix` computes the length of the longest common prefix of the remainders:
for start positions inside the strings the result `n` is at most the shorter remaining
length, the first `n` symbols of the remainders agree, and either `n` is the shorter
remaining length or the symbols right after differ; the three values of
`test_common_prefix` are 3, 0 and 6. -/
theorem common_prefix_longest :
    (∀ (a b : Key) (s p : Nat), s ≤ a.length → p ≤ b.length →
      common_prefix a s b p ≤ min (a.length - s) (b.length - p) ∧
      (∀ i, i < common_prefix a s b p → a[s + i]? = b[p + i]?) ∧
      ( common_prefix a s b p = min (a.length - s) (b.length - p) ∨
        a[s + common_prefix a s b p]? ≠ b[p + common_prefix a s b p]?)) ∧
    common_prefix "banana".toList 0 "bandana".toList 0 = 3 ∧
    common_prefix "banana".toList 0 "foo".toList 0 = 0 ∧
    common_prefix "banana".toList 0 "banana".toList 0 = 6 := by
  refine ⟨?_, by decide, by decide, by decide⟩
  intro a b s p hs hp
  obtain ⟨h1, h2, h3, h4⟩ := common_prefix_loop_spec a b
    (s + min (a.length - s) (b.length - p)) (min (a.length - s) (b.length - p)) s p
    (by omega) (by omega)
  have hn : common_prefix a s b p =
      common_prefix_loop a b (s + min (a.length - s) (b.length - p))
        (min (a.length - s) (b.length - p)) s p - s := rfl
  generalize common_prefix_loop a b (s + min (a.length - s) (b.length - p))
        (min (a.length - s) (b.length - p)) s p = r at h1 h2 h3 h4 hn
  have hmin1 : min (a.length - s) (b.length - p) ≤ a.length - s := Nat.min_le_left _ _
  have hmin2 : min (a.length - s) (b.length - p) ≤ b.length - p := Nat.min_le_right _ _
  refine ⟨by omega, ?_, ?_⟩
  · intro i hi
    rw [char_at_eq_getElem a (s + i) (by omega), char_at_eq_getElem b (p + i) (by omega)]
    have := h3 (s + i) (by omega) (by omega)
    rw [this]; congr 3; omega
  · rcases h4 with h4 | h4
    · left; omega
    · by_cases hr : r = s + min (a.length - s) (b.length - p)
      · left; omega
      · right
        have e1 : s + common_prefix a s b p = r := by omega
        have e2 : p + common_prefix a s b p = p + (r - s) := by omega
        rw [e1, e2, char_at_eq_getElem a r (by omega), char_at_eq_getElem b (p + (r - s)) (by omega)]
        intro h
        exact h4 (Option.some.inj h)

/-- C10 at a concrete input: `common_prefix("banana", 0, "bandana", 0)`, both start positions
inside their strings. -/
theorem common_prefix_longest_witness :
    (0 ≤ "banana".toList.length ∧ 0 ≤ "bandana".toList.length) ∧
    common_prefix "banana".toList 0 "bandana".toList 0 ≤
      min ("banana".toList.length - 0) ("bandana".toList.length - 0) ∧
    (∀ i, i < common_prefix "banana".toList 0 "bandana".toList 0 →
      "banana".toList[0 + i]? = "bandana".toList[0 + i]?) ∧
    ( common_prefix "banana".toList 0 "bandana".toList 0 =
        min ("banana".toList.length - 0) ("bandana".toList.length - 0) ∨
      "banana".toList[0 + common_prefix "banana".toList 0 "bandana".toList 0]? ≠
        "bandana".toList[0 + common_prefix "banana".toList 0 "bandana".toList 0]?) :=
  ⟨⟨by decide, by decide⟩,
    common_prefix_longest.1 "banana".toList "bandana".toList 0 0 (by decide) (by decide)⟩

/-! ## Prefix enumeration -/

/-- A downward path extended by one more edge at its end. -/
theorem DownPath.snoc {a b : Node} {labels : Key} (h : DownPath a labels b) (e : Edge Node)
    (he : e ∈ b.children) : DownPath a (labels ++ e.part) e.dest := by
  induction h with
  | here n =>
    have := DownPath.step n e [] e.dest he (DownPath.here e.dest)
    simpa using this
  | step n e1 labels m he1 _ ih =>
    have := DownPath.step n e1 (labels ++ e.part) e.dest he1 (ih he)
    simpa [List.append_assoc] using this

/-- The size of a node is one more than the size of its children. -/
theorem Node.size_eq (n : Node) : n.size = 1 + Node.sizeEdges n.children := by
  cases n with
  | mk cs l v => simp [Node.size, Node.children]

/-- Pushing the children of a node: the new stack holds the old items and, for each child
edge `e`, the item `(k ++ e.part, e.dest)`; its size grows by the size of the children. -/
theorem push_children_spec (k : Key) :
    ∀ (children : List (Edge Node)) (stack : List (Key × Node)),
      (∀ it, it ∈ children.foldl (fun st edge => (k ++ edge.part, edge.dest) :: st) stack →
        it ∈ stack ∨ ∃ e, e ∈ children ∧ it = (k ++ e.part, e.dest)) ∧
      stack_size (children.foldl (fun st edge => (k ++ edge.part, edge.dest) :: st) stack)
        = stack_size stack + Node.sizeEdges children := by
  intro children
  induction children with
  | nil => intro stack; simp [Node.sizeEdges]
  | cons e rest ih =>
    intro stack
    obtain ⟨h1, h2⟩ := ih ((k ++ e.part, e.dest) :: stack)
    refine ⟨?_, ?_⟩
    · intro it hit
      rcases h1 it hit with h | ⟨e1, he1, rfl⟩
      · rcases List.mem_cons.1 h with h | h
        · exact Or.inr ⟨e, List.mem_cons_self _ _, h⟩
        · exact Or.inl h
      · exact Or.inr ⟨e1, List.mem_cons_of_mem _ he1, rfl⟩
    · simp only [List.foldl_cons]
      rw [h2]
      simp [stack_size, Node.sizeEdges]
      omega

/-- The loop of `find_candidates` below a node `start` reached by the key `p`: when every
stack item is `p` plus the labels of a downward path from `start` to its node, every result
so far is `p` plus the labels of such a path to a node without children, and the fuel covers
the nodes on the stack, the loop returns and every result is of that form. -/
theorem find_candidates_loop_spec (start : Node) (p : Key) :
    ∀ (fuel : Nat) (stack : List (Key × Node)) (result : List Key),
      (∀ it, it ∈ stack → ∃ labels, DownPath start labels it.2 ∧ it.1 = p ++ labels) →
      (∀ c, c ∈ result →
        ∃ labels last, DownPath start labels last ∧ last.children = [] ∧ c = p ++ labels) →
      stack_size stack ≤ fuel →
      ∃ out, find_candidates_loop fuel stack result = some out ∧
        ∀ c, c ∈ out →
          ∃ labels last, DownPath start labels last ∧ last.children = [] ∧ c = p ++ labels := by
  intro fuel
  induction fuel with
  | zero =>
    intro stack result hs hr hf
    cases stack with
    | nil => exact ⟨result, by simp [find_candidates_loop], hr⟩
    | cons item stack =>
      have := Node.size_eq item.2
      simp [stack_size] at hf
      omega
  | succ fuel ih =>
    intro stack result hs hr hf
    cases stack with
    | nil => exact ⟨result, by simp [find_candidates_loop], hr⟩
    | cons item stack =>
      simp only [find_candidates_loop]
      obtain ⟨labels, hpath, hkey⟩ := hs item (List.mem_cons_self _ _)
      obtain ⟨hmem, hsize⟩ := push_children_spec item.1 item.2.children stack
      apply ih
      · intro it hit
        rcases hmem it hit with h | ⟨e, he, rfl⟩
        · exact hs it (List.mem_cons_of_mem _ h)
        · exact ⟨labels ++ e.part, hpath.snoc e he, by simp [hkey, List.append_assoc]⟩
      · intro c hc
        by_cases hempty : item.2.children.isEmpty
        · rw [if_pos hempty] at hc
          rcases List.mem_append.1 hc with h | h
          · exact hr c h
          · have hc1 : c = item.1 := by simpa using h
            exact ⟨labels, item.2, hpath, List.isEmpty_iff.1 hempty, by rw [hc1, hkey]⟩
        · rw [if_neg hempty] at hc
          exact hr c hc
      · rw [hsize]
        have := Node.size_eq item.2
        simp [stack_size] at hf ⊢
        omega

/-- C9. Every enumerated candidate starts with the prefix: for every tree and every non-empty
prefix `p`, `find_candidates(p)` returns a list, and each of its elements is `p` followed by
the concatenated edge labels of a downward path from the node `find_node(p, false)` returns
to a node with no outgoing edges; in particular it has `p` as a prefix. -/
theorem find_candidates_start_with_prefix (t : RadixTree) (p : Key) (hp : p ≠ []) :
    ∃ result, t.find_candidates p = some result ∧
      ∀ c, c ∈ result →
        p <+: c ∧
        ∃ start labels last, t.find_node p false = some start ∧ DownPath start labels last ∧
          last.children = [] ∧ c = p ++ labels := by
  unfold RadixTree.find_candidates
  have hne : ¬ p.isEmpty = true := by simpa [List.isEmpty_iff] using hp
  rw [if_neg hne]
  cases hf : t.find_node p false with
  | none => exact ⟨[], rfl, by simp⟩
  | some start =>
    obtain ⟨out, hout, hspec⟩ := find_candidates_loop_spec start p start.size [(p, start)] []
      (by
        intro it hit
        have : it = (p, start) := by simpa using hit
        subst this
        exact ⟨[], DownPath.here start, by simp⟩)
      (by simp) (by simp [stack_size])
    refine ⟨out, hout, ?_⟩
    intro c hc
    obtain ⟨labels, last, h1, h2, h3⟩ := hspec c hc
    exact ⟨⟨labels, h3.symm⟩, start, labels, last, rfl, h1, h2, h3⟩

/-- C9 at a concrete input: the non-empty prefix `"ban"` in the tree of `main`. -/
theorem find_candidates_start_with_prefix_witness :
    "ban".toList ≠ [] ∧
    ∃ result, main_tree.find_candidates "ban".toList = some result ∧
      ∀ c, c ∈ result →
        "ban".toList <+: c ∧
        ∃ start labels last, main_tree.find_node "ban".toList false = some start ∧
          DownPath start labels last ∧ last.children = [] ∧ c = "ban".toList ++ labels :=
  ⟨by decide, find_candidates_start_with_prefix main_tree "ban".toList (by decide)⟩

/-! ## `insert` returns -/

/-- A part that passes `has_prefix` is no longer than the remaining key. -/
theorem has_prefix_length_le (key : Key) (key_pos : Nat) (part : Key)
    (h : has_prefix key key_pos part = true) : part.length ≤ key.length - key_pos := by
  unfold has_prefix substr substr_from at h
  have h1 : List.take part.length (List.drop key_pos key) = List.drop 0 part := by simpa using h
  have h2 := congrArg List.length h1
  simp at h2
  omega

/-- The result of `common_prefix` is at most the remaining length of its second string. -/
theorem common_prefix_le_right (a b : Key) (s p : Nat) :
    common_prefix a s b p ≤ b.length - p := by
  obtain ⟨h1, h2, _, _⟩ := common_prefix_loop_spec a b
    (s + min (a.length - s) (b.length - p)) (min (a.length - s) (b.length - p)) s p
    (by omega) (by omega)
  have hn : common_prefix a s b p =
      common_prefix_loop a b (s + min (a.length - s) (b.length - p))
        (min (a.length - s) (b.length - p)) s p - s := rfl
  have hmin2 : min (a.length - s) (b.length - p) ≤ b.length - p := Nat.min_le_right _ _
  omega

/-- The edge scan of `insert`, when it takes an edge: the position stays inside the key, and
the node it moves to, weighed with the remaining key, is lighter than the children it
scanned. -/
theorem insert_scan_measure (key : Key) (key_pos : Nat) (hpos : key_pos ≤ key.length) :
    ∀ (children : List (Edge Node)) (i : Nat) (e : Edge Node) (p : Nat),
      insert_scan key key_pos children = some (i, e, p) →
      p ≤ key.length ∧
        e.dest.size + (key.length - p) ≤ Node.sizeEdges children + (key.length - key_pos) := by
  intro children
  induction children with
  | nil => intro i e p h; simp [insert_scan] at h
  | cons edge rest ih =>
    intro i e p h
    unfold insert_scan at h
    split at h
    · rename_i hhas
      have hlen := has_prefix_length_le key key_pos edge.part hhas
      simp only [Option.some.injEq, Prod.mk.injEq] at h
      obtain ⟨_, rfl, rfl⟩ := h
      simp only [Node.sizeEdges]
      omega
    · simp only at h
      split at h
      · rename_i hcp
        have hle := common_prefix_le_right edge.part key 0 key_pos
        simp only [Option.some.injEq, Prod.mk.injEq] at h
        obtain ⟨_, rfl, rfl⟩ := h
        simp only [Node.sizeEdges, Node.size]
        omega
      · split at h
        · simp at h
        · rename_i i1 e1 p1 hrec
          simp only [Option.some.injEq, Prod.mk.injEq] at h
          obtain ⟨_, rfl, rfl⟩ := h
          obtain ⟨h1, h2⟩ := ih i1 e1 p1 hrec
          simp only [Node.sizeEdges]
          omega

/-- The walk of `insert` returns whenever the fuel covers the nodes below the current node
plus the remaining key. -/
theorem insert_walk_returns (key : Key) (value : Value) :
    ∀ (fuel : Nat) (node : Node) (key_pos : Nat), key_pos ≤ key.length →
      node.size + (key.length - key_pos) ≤ fuel →
      ∃ r, insert_walk key value fuel node key_pos = some r := by
  intro fuel
  induction fuel with
  | zero =>
    intro node key_pos _ hf
    have := Node.size_eq node
    omega
  | succ fuel ih =>
    intro node key_pos hpos hf
    unfold insert_walk
    split
    · split
      · exact ⟨_, rfl⟩
      · rename_i i e p hscan
        obtain ⟨h1, h2⟩ := insert_scan_measure key key_pos hpos node.children i e p hscan
        have := Node.size_eq node
        obtain ⟨r, hr⟩ := ih e.dest p h1 (by omega)
        rw [hr]
        exact ⟨_, rfl⟩
    · exact ⟨_, rfl⟩

/-- The public `insert` always returns a tree: its fuel never runs out. -/
theorem insert_returns (t : RadixTree) (key : Key) (value : Value) :
    ∃ t1, t.insert key value = some t1 := by
  unfold RadixTree.insert
  split
  · exact ⟨t, rfl⟩
  · obtain ⟨r, hr⟩ := insert_walk_returns key value (key.length + t.root.size) t.root 0
      (Nat.zero_le _) (by omega)
    rw [hr]
    exact ⟨⟨r⟩, rfl⟩

/-- The public `find_candidates` always returns a list: its fuel never runs out. -/
theorem find_candidates_returns (t : RadixTree) (p : Key) :
    ∃ result, t.find_candidates p = some result := by
  by_cases hp : p = []
  · subst hp
    exact ⟨[], by simp [RadixTree.find_candidates]⟩
  · unfold RadixTree.find_candidates
    have hne : ¬ p.isEmpty = true := by simpa [List.isEmpty_iff] using hp
    rw [if_neg hne]
    cases hf : t.find_node p false with
    | none => exact ⟨[], rfl⟩
    | some start =>
      obtain ⟨out, hout, _⟩ := find_candidates_loop_spec start p start.size [(p, start)] []
        (by
          intro it hit
          have : it = (p, start) := by simpa using hit
          subst this
          exact ⟨[], DownPath.here start, by simp⟩)
        (by simp) (by simp [stack_size])
      exact ⟨out, hout⟩

/-! ## The prefix tests -/

/-- A list is a prefix of another when it is no longer and agrees with it position by
position. -/
theorem prefix_iff_getElem (b a : Key) :
    b <+: a ↔ b.length ≤ a.length ∧ ∀ i, i < b.length → a[i]? = b[i]? := by
  constructor
  · rintro ⟨t, rfl⟩
    refine ⟨by simp, fun i hi => List.getElem?_append_left hi⟩
  · rintro ⟨hlen, h⟩
    rw [List.prefix_iff_eq_take]
    apply List.ext_getElem?
    intro i
    rw [List.getElem?_take]
    by_cases hi : i < b.length
    · rw [if_pos hi, h i hi]
    · rw [if_neg hi]
      exact List.getElem?_eq_none (by omega)

/-- The static `has_prefix` holds exactly when `pfx` is a prefix of the remainder of `str`. -/
theorem has_prefix_iff (str : Key) (pos : Nat) (pfx : Key) :
    has_prefix str pos pfx = true ↔ pfx <+: str.drop pos := by
  unfold has_prefix substr substr_from
  rw [List.prefix_iff_eq_take]
  simp [eq_comm]

/-- The loop of `prefix_matches` with enough fuel returns true exactly when every position
up to `end_pos` matches. -/
theorem prefix_matches_loop_spec (str pfx : Key) (end_pos : Nat) :
    ∀ (fuel i j : Nat), i ≤ end_pos → end_pos - i ≤ fuel →
      (prefix_matches_loop str pfx end_pos fuel i j = true ↔
        ∀ k, i ≤ k → k < end_pos → char_at str k = char_at pfx (j + (k - i))) := by
  intro fuel
  induction fuel with
  | zero =>
    intro i j hi hf
    simp only [prefix_matches_loop, true_iff]
    intro k h1 h2
    omega
  | succ fuel ih =>
    intro i j hi hf
    simp only [prefix_matches_loop]
    by_cases hlt : i < end_pos
    · rw [if_pos hlt]
      by_cases hne : char_at str i ≠ char_at pfx j
      · rw [if_pos hne]
        constructor
        · intro h; exact absurd h (by simp)
        · intro h
          exact absurd (by simpa using h i (le_refl _) hlt) hne
      · rw [if_neg hne, ih (i + 1) (j + 1) (by omega) (by omega)]
        have heq : char_at str i = char_at pfx j := by simpa using hne
        constructor
        · intro h k hk1 hk2
          by_cases hki : k = i
          · subst hki; simpa using heq
          · have := h k (by omega) hk2
            rw [this]; congr 1; omega
        · intro h k hk1 hk2
          have := h k (by omega) hk2
          rw [this]; congr 1; omega
    · rw [if_neg hlt]
      simp only [true_iff]
      intro k h1 h2
      omega

/-- The static `prefix_matches`, for start positions inside the strings, holds exactly when
the remainder of `pfx` is a prefix of the remainder of `str`. -/
theorem prefix_matches_iff (str : Key) (s : Nat) (pfx : Key) (p : Nat)
    (hs : s ≤ str.length) (hp : p ≤ pfx.length) :
    prefix_matches str s pfx p = true ↔ pfx.drop p <+: str.drop s := by
  rw [prefix_iff_getElem]
  simp only [List.length_drop, List.getElem?_drop]
  unfold prefix_matches
  simp only []
  by_cases hgt : pfx.length - p > str.length - s
  · rw [if_pos hgt]
    constructor
    · intro h; exact absurd h (by simp)
    · rintro ⟨h, _⟩; omega
  · rw [if_neg hgt]
    have hmin : min (str.length - s) (pfx.length - p) = pfx.length - p := by omega
    rw [hmin, prefix_matches_loop_spec str pfx (s + (pfx.length - p)) (pfx.length - p) s p
      (by omega) (by omega)]
    constructor
    · intro h
      refine ⟨by omega, fun i hi => ?_⟩
      have := h (s + i) (by omega) (by omega)
      rw [char_at_eq_getElem str (s + i) (by omega), char_at_eq_getElem pfx (p + i) (by omega),
        this]
      congr 3; omega
    · rintro ⟨_, h⟩ k hk1 hk2
      have := h (k - s) (by omega)
      have e1 : s + (k - s) = k := by omega
      rw [e1, char_at_eq_getElem str k (by omega),
        char_at_eq_getElem pfx (p + (k - s)) (by omega)] at this
      exact Option.some.inj this

/-- C11. `prefix_matches` is the prefix test: for start positions inside the strings it is
true exactly when the remainder of `pfx` from `p` is a prefix of the remainder of `str` from
`s`, that is, when it is no longer than that remainder and each of its symbols equals the
corresponding symbol of `str`; the five values of `test_prefix_matches` are as asserted. -/
theorem prefix_matches_is_prefix_test :
    (∀ (str pfx : Key) (s p : Nat), s ≤ str.length → p ≤ pfx.length →
      (prefix_matches str s pfx p = true ↔ pfx.drop p <+: str.drop s) ∧
      (prefix_matches str s pfx p = true ↔
        pfx.length - p ≤ str.length - s ∧
          ∀ i, i < pfx.length - p → str[s + i]? = pfx[p + i]?)) ∧
    prefix_matches "banana".toList 0 "banana".toList 0 = true ∧
    prefix_matches "banana".toList 0 "banan".toList 0 = true ∧
    prefix_matches "banana".toList 0 "ban".toList 0 = true ∧
    prefix_matches "banan".toList 0 "banana".toList 0 = false ∧
    prefix_matches "foo".toList 0 "banana".toList 0 = false := by
  refine ⟨?_, by decide, by decide, by decide, by decide, by decide⟩
  intro str pfx s p hs hp
  refine ⟨prefix_matches_iff str s pfx p hs hp, ?_⟩
  rw [prefix_matches_iff str s pfx p hs hp, prefix_iff_getElem]
  simp only [List.length_drop, List.getElem?_drop]

/-- C11 at a concrete input: `prefix_matches("banana", 0, "ban", 0)`, both start positions
inside their strings. -/
theorem prefix_matches_is_prefix_test_witness :
    (0 ≤ "banana".toList.length ∧ 0 ≤ "ban".toList.length) ∧
    (prefix_matches "banana".toList 0 "ban".toList 0 = true ↔
      "ban".toList.drop 0 <+: "banana".toList.drop 0) :=
  ⟨⟨by decide, by decide⟩,
    (prefix_matches_is_prefix_test.1 "banana".toList "ban".toList 0 0 (by decide) (by decide)).1⟩

/-- C18. Insertion's and lookup's edge tests agree: for every position inside `str`,
`has_prefix(str, pos, pfx)` and `prefix_matches(str, pos, pfx, 0)` return the same boolean,
true exactly when the `|pfx|` symbols of `str` from `pos` on exist and spell `pfx`. -/
theorem has_prefix_eq_prefix_matches (str pfx : Key) (pos : Nat) (hpos : pos ≤ str.length) :
    has_prefix str pos pfx = prefix_matches str pos pfx 0 ∧
    ( has_prefix str pos pfx = true ↔
      pos + pfx.length ≤ str.length ∧ (str.drop pos).take pfx.length = pfx) := by
  have h1 := has_prefix_iff str pos pfx
  have h2 := prefix_matches_iff str pos pfx 0 hpos (Nat.zero_le _)
  rw [List.drop_zero] at h2
  refine ⟨?_, ?_⟩
  · cases ha : has_prefix str pos pfx <;> cases hb : prefix_matches str pos pfx 0
    · rfl
    · exact absurd (h1.2 (h2.1 hb)) (by simp [ha])
    · exact absurd (h2.2 (h1.1 ha)) (by simp [hb])
    · rfl
  · rw [h1]
    constructor
    · intro h
      have hl := h.length_le
      simp only [List.length_drop] at hl
      exact ⟨by omega, (List.prefix_iff_eq_take.1 h).symm⟩
    · rintro ⟨_, h⟩
      exact List.prefix_iff_eq_take.2 h.symm

/-- C18 at a concrete input: the part `"ban"` against `"bandit"` from position 0. -/
theorem has_prefix_eq_prefix_matches_witness :
    0 ≤ "bandit".toList.length ∧
    has_prefix "bandit".toList 0 "ban".toList = prefix_matches "bandit".toList 0 "ban".toList 0 :=
  ⟨by decide, ( has_prefix_eq_prefix_matches "bandit".toList "ban".toList 0 (by decide)).1⟩

/-! ## Further defects of `insert`, evaluated -/

/-- C13 (defect). During `insert("bandit", 3)` into the tree holding `"banana"` and
`"bandana"`, the edge loop at the node for `"ban"` (position 3 of the key) splits the edge
labelled `"dana"` at shared length 1: the child edge is `"ana"` with the old destination, but
the shortened edge is labelled `"b"`, the first symbol of the key, not `"d"`, the first symbol
of the old label, and `"b" ++ "ana"` is not `"dana"`. -/
theorem split_below_root_relabels_with_key_start :
    RadixTree.empty.insert_all banana_inserts = some banana_tree ∧
    banana_tree.insert "bandit".toList 3 = some bandit_tree ∧
    has_prefix "bandit".toList 3 "dana".toList = false ∧
    common_prefix "dana".toList 0 "bandit".toList 3 = 1 ∧
    insert_scan "bandit".toList 3
        [⟨"ana".toList, .mk [] true 1⟩, ⟨"dana".toList, .mk [] true 2⟩]
      = some (1, ⟨"b".toList, .mk [⟨"ana".toList, .mk [] true 2⟩] false 0⟩, 4) ∧
    "b".toList ≠ "dana".toList.take 1 ∧
    "b".toList ++ "ana".toList ≠ "dana".toList :=
  ⟨rfl, rfl, by decide, by decide, rfl, by decide, by decide⟩

/-- C14 (defect). On the tree holding only `"foobar"`, `exists("foo")` is false, yet the walk
of `insert("foo", 3)` goes from position 0 to position 3, the length of the key, so `insert`
takes its early return: the call adds no leaf. -/
theorem early_return_for_absent_key :
    RadixTree.empty.insert "foobar".toList 4 = some foobar_tree ∧
    "foo".toList ≠ [] ∧
    foobar_tree.exists "foo".toList = false ∧
    foobar_tree.insert_positions "foo".toList = some [0, 3] ∧
    "foo".toList.length = 3 ∧
    foobar_tree.insert "foo".toList 3 = some foobar_split_tree ∧
    foobar_split_tree.root.leaf_values = foobar_tree.root.leaf_values :=
  ⟨rfl, by decide, by decide, by decide, by decide, rfl, by decide⟩

/-- C15 (defect). After inserting `"abx"`, `"ac"`, `"aa"`, `"aby"`, the node below the root
edge `"a"` has the outgoing edges `"a"`, `"c"`, `"a"`: the split of `"bx"` at position 1 of
`"aby"` relabelled it `"a"`, so two distinct sibling edges agree at their first symbol. -/
theorem siblings_clash_after_split_below_root :
    RadixTree.empty.insert_all clash_inserts = some clash_tree ∧
    clash_tree.root.children.map (fun e => e.dest.children.map (fun e1 => e1.part))
      = ["a".toList :: "c".toList :: "a".toList :: []] ∧
    ¬ SiblingsDisjoint clash_tree.root := by
  refine ⟨rfl, by decide, ?_⟩
  intro h
  cases h with
  | mk cs l x _ hc =>
    have h1 := hc ⟨"a".toList, clash_node⟩ (List.mem_singleton.2 rfl)
    simp only [clash_node] at h1
    cases h1 with
    | mk cs1 l1 x1 hp _ =>
      simp only [List.pairwise_cons] at hp
      exact hp.1 _ (List.mem_cons_of_mem _ (List.mem_singleton.2 rfl)) (by decide)

/-! ## Positions of the walks -/

/-- The position trace of `insert`'s walk runs out of fuel exactly when the walk does. -/
theorem insert_walk_positions_isSome (key : Key) (value : Value) :
    ∀ (fuel : Nat) (node : Node) (key_pos : Nat),
      (insert_walk_positions key fuel node key_pos).isSome
        = (insert_walk key value fuel node key_pos).isSome := by
  intro fuel
  induction fuel with
  | zero => intro node key_pos; rfl
  | succ fuel ih =>
    intro node key_pos
    unfold insert_walk_positions insert_walk
    split
    · split
      · rfl
      · rename_i i e p hscan
        have := ih e.dest p
        cases h1 : insert_walk_positions key fuel e.dest p <;>
          cases h2 : insert_walk key value fuel e.dest p <;> simp_all
    · rfl

/-- Every position of `insert`'s walk started inside the key stays inside the key. -/
theorem insert_walk_positions_le (key : Key) :
    ∀ (fuel : Nat) (node : Node) (key_pos : Nat) (ps : List Nat), key_pos ≤ key.length →
      insert_walk_positions key fuel node key_pos = some ps →
      ∀ p, p ∈ ps → p ≤ key.length := by
  intro fuel
  induction fuel with
  | zero => intro node key_pos ps _ h; simp [insert_walk_positions] at h
  | succ fuel ih =>
    intro node key_pos ps hpos h
    unfold insert_walk_positions at h
    split at h
    · split at h
      · obtain rfl := Option.some.inj h
        intro p hp
        rw [List.mem_singleton.1 hp]; exact hpos
      · rename_i i e p1 hscan
        obtain ⟨h1, _⟩ := insert_scan_measure key key_pos hpos node.children i e p1 hscan
        split at h
        · exact absurd h (by simp)
        · rename_i rest hrest
          obtain rfl := Option.some.inj h
          intro p hp
          rcases List.mem_cons.1 hp with hp | hp
          · rw [hp]; exact hpos
          · exact ih e.dest p1 rest h1 hrest p hp
    · obtain rfl := Option.some.inj h
      intro p hp
      rw [List.mem_singleton.1 hp]; exact hpos

/-- A part that passes `prefix_matches` from a position inside the key is no longer than the
remaining key. -/
theorem prefix_matches_length_le (key : Key) (key_pos : Nat) (part : Key)
    (hpos : key_pos ≤ key.length) (h : prefix_matches key key_pos part 0 = true) :
    key_pos + part.length ≤ key.length := by
  have := ((prefix_matches_iff key key_pos part 0 hpos (Nat.zero_le _)).1 h).length_le
  simp only [List.drop_zero, List.length_drop] at this
  omega

mutual
/-- Every position of `find_node`'s walk started inside the key stays inside the key. -/
theorem find_node_walk_positions_le (key : Key) :
    ∀ (node : Node) (key_pos : Nat), key_pos ≤ key.length →
      ∀ p, p ∈ find_node_walk_positions key node key_pos → p ≤ key.length
  | .mk children is_leaf value, key_pos, hpos, p, hp => by
    unfold find_node_walk_positions at hp
    rcases List.mem_cons.1 hp with hp | hp
    · rw [hp]; exact hpos
    · split at hp
      · exact find_node_scan_positions_le key children key_pos hpos p hp
      · exact absurd hp (by simp)
/-- The edge loop of `find_node` keeps the positions inside the key. -/
theorem find_node_scan_positions_le (key : Key) :
    ∀ (children : List (Edge Node)) (key_pos : Nat), key_pos ≤ key.length →
      ∀ p, p ∈ find_node_scan_positions key children key_pos → p ≤ key.length
  | [], _, _, p, hp => by
    unfold find_node_scan_positions at hp
    exact absurd hp (by simp)
  | edge :: rest, key_pos, hpos, p, hp => by
    unfold find_node_scan_positions at hp
    split at hp
    · exact find_node_scan_positions_le key rest key_pos hpos p hp
    · rename_i hm
      have hm1 : prefix_matches key key_pos edge.part 0 = true := by simpa using hm
      exact find_node_walk_positions_le key edge.dest (key_pos + edge.part.length)
        (prefix_matches_length_le key key_pos edge.part hpos hm1) p hp
end

/-- C17. The position never overshoots the key: for every tree and every key, the walk of
`insert` returns and each value `key_pos` takes in it is at most the length of the key, the
last one included, so the test `key_pos > key_size` after the loop is false; and each value
`key_pos` takes in the walk of `find_node` is at most the length of the key. -/
theorem position_never_overshoots (t : RadixTree) (key : Key) :
    (∃ ps, t.insert_positions key = some ps ∧ (∀ p, p ∈ ps → p ≤ key.length) ∧
      ∀ p, ps.getLast? = some p → ¬ p > key.length) ∧
    (∀ p, p ∈ t.find_node_positions key → p ≤ key.length) := by
  constructor
  · have hsome : ∃ ps, t.insert_positions key = some ps := by
      unfold RadixTree.insert_positions
      split
      · exact ⟨[], rfl⟩
      · obtain ⟨r, hr⟩ := insert_walk_returns key 0 (key.length + t.root.size) t.root 0
          (Nat.zero_le _) (by omega)
        have := insert_walk_positions_isSome key 0 (key.length + t.root.size) t.root 0
        rw [hr] at this
        exact Option.isSome_iff_exists.1 this
    obtain ⟨ps, hps⟩ := hsome
    have hall : ∀ p, p ∈ ps → p ≤ key.length := by
      unfold RadixTree.insert_positions at hps
      split at hps
      · obtain rfl := Option.some.inj hps
        intro p hp; exact absurd hp (by simp)
      · exact insert_walk_positions_le key _ t.root 0 ps (Nat.zero_le _) hps
    refine ⟨ps, hps, hall, ?_⟩
    intro p hp
    have := hall p (List.mem_of_getLast?_eq_some hp)
    omega
  · intro p hp
    unfold RadixTree.find_node_positions at hp
    split at hp
    · exact absurd hp (by simp)
    · exact find_node_walk_positions_le key t.root 0 (Nat.zero_le _) p hp

/-! ## The edge loop of `insert` -/

/-- The result of `common_prefix` for start positions inside the strings: at most the shorter
remaining length, the symbols before it agree, and it is the shorter remaining length or the
symbols at it differ. -/
theorem common_prefix_props (a b : Key) (s p : Nat) (hs : s ≤ a.length) (hp : p ≤ b.length) :
    common_prefix a s b p ≤ min (a.length - s) (b.length - p) ∧
    (∀ i, i < common_prefix a s b p → a[s + i]? = b[p + i]?) ∧
    ( common_prefix a s b p = min (a.length - s) (b.length - p) ∨
      a[s + common_prefix a s b p]? ≠ b[p + common_prefix a s b p]?) := by
  obtain ⟨h1, h2, h3, h4⟩ := common_prefix_loop_spec a b
    (s + min (a.length - s) (b.length - p)) (min (a.length - s) (b.length - p)) s p
    (by omega) (by omega)
  have hn : common_prefix a s b p =
      common_prefix_loop a b (s + min (a.length - s) (b.length - p))
        (min (a.length - s) (b.length - p)) s p - s := rfl
  generalize common_prefix_loop a b (s + min (a.length - s) (b.length - p))
        (min (a.length - s) (b.length - p)) s p = r at h1 h2 h3 h4 hn
  have hmin1 : min (a.length - s) (b.length - p) ≤ a.length - s := Nat.min_le_left _ _
  have hmin2 : min (a.length - s) (b.length - p) ≤ b.length - p := Nat.min_le_right _ _
  refine ⟨by omega, ?_, ?_⟩
  · intro i hi
    rw [char_at_eq_getElem a (s + i) (by omega), char_at_eq_getElem b (p + i) (by omega),
      h3 (s + i) (by omega) (by omega)]
    congr 3; omega
  · by_cases hr : r = s + min (a.length - s) (b.length - p)
    · left; omega
    · right
      have h5 : char_at a r ≠ char_at b (p + (r - s)) := by
        rcases h4 with h4 | h4
        · exact absurd h4 hr
        · exact h4
      have e1 : s + common_prefix a s b p = r := by omega
      have e2 : p + common_prefix a s b p = p + (r - s) := by omega
      rw [e1, e2, char_at_eq_getElem a r (by omega), char_at_eq_getElem b (p + (r - s)) (by omega)]
      intro h
      exact h5 (Option.some.inj h)

/-- When the whole of `part` is shared with the remaining key, `part` is a prefix of it. -/
theorem prefix_of_common_prefix_eq_length (part key : Key) (key_pos : Nat)
    (hpos : key_pos ≤ key.length) (h : common_prefix part 0 key key_pos = part.length) :
    part <+: key.drop key_pos := by
  obtain ⟨h1, h2, _⟩ := common_prefix_props part key 0 key_pos (Nat.zero_le _) hpos
  rw [prefix_iff_getElem]
  simp only [List.length_drop, List.getElem?_drop]
  rw [h] at h1 h2
  have hmin2 : min (part.length - 0) (key.length - key_pos) ≤ key.length - key_pos :=
    Nat.min_le_right _ _
  refine ⟨by omega, fun i hi => ?_⟩
  have := h2 i hi
  simp only [Nat.zero_add] at this
  exact this.symm

/-- A split leaves a non-empty remainder of the label: when `part` fails `has_prefix`, the
shared length is less than the length of `part`. -/
theorem common_prefix_lt_of_not_has_prefix (part key : Key) (key_pos : Nat)
    (hpos : key_pos ≤ key.length) (h : has_prefix key key_pos part = false) :
    common_prefix part 0 key key_pos < part.length := by
  obtain ⟨h1, _, _⟩ := common_prefix_props part key 0 key_pos (Nat.zero_le _) hpos
  have hmin1 : min (part.length - 0) (key.length - key_pos) ≤ part.length - 0 :=
    Nat.min_le_left _ _
  by_contra hge
  have heq : common_prefix part 0 key key_pos = part.length := by omega
  have := (has_prefix_iff key key_pos part).2
    (prefix_of_common_prefix_eq_length part key key_pos hpos heq)
  rw [h] at this
  exact absurd this (by simp)

/-- The edge loop of `insert`, when it takes an edge: it takes child `i`, and either that
child's part is a prefix of the remaining key and the edge is left as it is, or it is not,
the shared length is positive and the edge is split. -/
theorem insert_scan_spec (key : Key) (key_pos : Nat) :
    ∀ (children : List (Edge Node)) (i : Nat) (e : Edge Node) (p : Nat),
      insert_scan key key_pos children = some (i, e, p) →
      ∃ e0, children[i]? = some e0 ∧
        (( has_prefix key key_pos e0.part = true ∧ e = e0 ∧ p = key_pos + e0.part.length) ∨
         ( has_prefix key key_pos e0.part = false ∧
          common_prefix e0.part 0 key key_pos ≠ 0 ∧
          e = ⟨substr key 0 ( common_prefix e0.part 0 key key_pos),
                .mk [⟨substr_from e0.part ( common_prefix e0.part 0 key key_pos), e0.dest⟩]
                  false 0⟩ ∧
          p = key_pos + common_prefix e0.part 0 key key_pos)) := by
  intro children
  induction children with
  | nil => intro i e p h; simp [insert_scan] at h
  | cons edge rest ih =>
    intro i e p h
    unfold insert_scan at h
    split at h
    · rename_i hhas
      simp only [Option.some.injEq, Prod.mk.injEq] at h
      obtain ⟨rfl, rfl, rfl⟩ := h
      exact ⟨edge, List.getElem?_cons_zero, Or.inl ⟨hhas, rfl, rfl⟩⟩
    · rename_i hhas
      simp only at h
      split at h
      · rename_i hcp
        simp only [Option.some.injEq, Prod.mk.injEq] at h
        obtain ⟨rfl, rfl, rfl⟩ := h
        exact ⟨edge, List.getElem?_cons_zero, Or.inr ⟨by simpa using hhas, hcp, rfl, rfl⟩⟩
      · split at h
        · simp at h
        · rename_i i1 e1 p1 hrec
          simp only [Option.some.injEq, Prod.mk.injEq] at h
          obtain ⟨rfl, rfl, rfl⟩ := h
          obtain ⟨e0, h0, hcases⟩ := ih i1 e1 p1 hrec
          exact ⟨e0, by simpa using h0, hcases⟩

/-! ## Edge labels stay non-empty -/

/-- The parts of the children of a node with non-empty labels are non-empty. -/
theorem LabelsNonEmpty.parts {n : Node} (h : LabelsNonEmpty n) :
    ∀ e, e ∈ n.children → e.part ≠ [] := by
  cases h with
  | mk cs l x h1 h2 => exact h1

/-- The children of a node with non-empty labels have non-empty labels. -/
theorem LabelsNonEmpty.dest_labels {n : Node} (h : LabelsNonEmpty n) :
    ∀ e, e ∈ n.children → LabelsNonEmpty e.dest := by
  cases h with
  | mk cs l x h1 h2 => exact h2

/-- The tail of `insert` keeps the labels non-empty. -/
theorem insert_finish_labels (key : Key) (value : Value) (node : Node) (key_pos : Nat)
    (h : LabelsNonEmpty node) : LabelsNonEmpty (insert_finish key value node key_pos) := by
  unfold insert_finish
  split
  · exact h
  · split
    · exact h
    · refine LabelsNonEmpty.mk _ _ _ ?_ ?_
      · intro e he
        rcases List.mem_append.1 he with he | he
        · exact h.parts e he
        · rw [List.mem_singleton.1 he]
          simp only [substr_from]
          intro hd
          have := congrArg List.length hd
          simp only [List.length_drop, List.length_nil] at this
          omega
      · intro e he
        rcases List.mem_append.1 he with he | he
        · exact h.dest_labels e he
        · rw [List.mem_singleton.1 he]
          exact LabelsNonEmpty.mk _ _ _ (fun e he => absurd he (by simp))
            (fun e he => absurd he (by simp))

/-- The walk of `insert` keeps the labels non-empty. -/
theorem insert_walk_labels (key : Key) (value : Value) :
    ∀ (fuel : Nat) (node : Node) (key_pos : Nat) (r : Node), LabelsNonEmpty node →
      insert_walk key value fuel node key_pos = some r → LabelsNonEmpty r := by
  intro fuel
  induction fuel with
  | zero => intro node key_pos r _ h; simp [insert_walk] at h
  | succ fuel ih =>
    intro node key_pos r hn h
    unfold insert_walk at h
    split at h
    · rename_i hlt
      split at h
      · obtain rfl := Option.some.inj h
        exact insert_finish_labels key value node key_pos hn
      · rename_i i e p hscan
        obtain ⟨e0, h0, hcases⟩ := insert_scan_spec key key_pos node.children i e p hscan
        have hmem : e0 ∈ node.children := List.getElem?_mem h0
        have he : e.part ≠ [] ∧ LabelsNonEmpty e.dest := by
          rcases hcases with ⟨_, rfl, _⟩ | ⟨hhas, hcp, rfl, _⟩
          · exact ⟨hn.parts e hmem, hn.dest_labels e hmem⟩
          · have hlt2 := common_prefix_lt_of_not_has_prefix e0.part key key_pos (by omega) hhas
            refine ⟨?_, LabelsNonEmpty.mk _ _ _ ?_ ?_⟩
            · simp only [substr, List.drop_zero]
              intro hd
              have := congrArg List.length hd
              simp only [List.length_take, List.length_nil] at this
              omega
            · intro e1 he1
              rw [List.mem_singleton.1 he1]
              simp only [substr_from]
              intro hd
              have := congrArg List.length hd
              simp only [List.length_drop, List.length_nil] at this
              omega
            · intro e1 he1
              rw [List.mem_singleton.1 he1]
              exact hn.dest_labels e0 hmem
        split at h
        · exact absurd h (by simp)
        · rename_i next hnext
          obtain rfl := Option.some.inj h
          have hnext1 := ih e.dest p next he.2 hnext
          refine LabelsNonEmpty.mk _ _ _ ?_ ?_
          · intro e1 he1
            rcases List.mem_or_eq_of_mem_set he1 with he1 | he1
            · exact hn.parts e1 he1
            · rw [he1]; exact he.1
          · intro e1 he1
            rcases List.mem_or_eq_of_mem_set he1 with he1 | he1
            · exact hn.dest_labels e1 he1
            · rw [he1]; exact hnext1
    · obtain rfl := Option.some.inj h
      exact insert_finish_labels key value node key_pos hn

/-- One `insert` returns and keeps the labels non-empty. -/
theorem insert_labels (t : RadixTree) (k : Key) (v : Value) (h : LabelsNonEmpty t.root) :
    ∃ t1, t.insert k v = some t1 ∧ LabelsNonEmpty t1.root := by
  obtain ⟨t1, h1⟩ := insert_returns t k v
  refine ⟨t1, h1, ?_⟩
  unfold RadixTree.insert at h1
  split at h1
  · obtain rfl := Option.some.inj h1
    exact h
  · cases hw : insert_walk k v (k.length + t.root.size) t.root 0 with
    | none => rw [hw] at h1; exact absurd h1 (by simp)
    | some r =>
      rw [hw] at h1
      obtain rfl := Option.some.inj h1
      exact insert_walk_labels k v _ t.root 0 r h hw

/-- A sequence of `insert` calls returns and keeps the labels non-empty. -/
theorem insert_all_labels :
    ∀ (ops : List (Key × Value)) (t : RadixTree), LabelsNonEmpty t.root →
      ∃ t1, t.insert_all ops = some t1 ∧ LabelsNonEmpty t1.root := by
  intro ops
  induction ops with
  | nil => intro t h; exact ⟨t, rfl, h⟩
  | cons op rest ih =>
    intro t h
    obtain ⟨k, v⟩ := op
    obtain ⟨t1, h1, h2⟩ := insert_labels t k v h
    obtain ⟨t2, h3, h4⟩ := ih t1 h2
    exact ⟨t2, by simp [RadixTree.insert_all, h1, h3], h4⟩

/-- The tree holding only `"foobar"` has non-empty labels. -/
theorem foobar_tree_labels : LabelsNonEmpty foobar_tree.root :=
  LabelsNonEmpty.mk _ _ _
    (fun e he => by rw [List.mem_singleton.1 he]; decide)
    (fun e he => by
      rw [List.mem_singleton.1 he]
      exact LabelsNonEmpty.mk _ _ _ (fun e he => absurd he (by simp))
        (fun e he => absurd he (by simp)))

/-- C16. Edge labels are never empty: if every edge label of a tree is non-empty, then for
every key and value `insert` returns a tree whose every edge label is non-empty; hence every
sequence of `insert` calls from the empty tree returns a tree with non-empty edge labels
only. -/
theorem labels_never_empty :
    (∀ (t : RadixTree) (k : Key) (v : Value), LabelsNonEmpty t.root →
      ∃ t1, t.insert k v = some t1 ∧ LabelsNonEmpty t1.root) ∧
    (∀ ops : List (Key × Value),
      ∃ t, RadixTree.empty.insert_all ops = some t ∧ LabelsNonEmpty t.root) :=
  ⟨insert_labels, fun ops => insert_all_labels ops RadixTree.empty
    (LabelsNonEmpty.mk _ _ _ (fun e he => absurd he (by simp)) (fun e he => absurd he (by simp)))⟩

/-- C16 at a concrete input: `insert("foo", 3)`, which splits the edge `"foobar"`, on the
tree holding only `"foobar"`. -/
theorem labels_never_empty_witness :
    LabelsNonEmpty foobar_tree.root ∧
    ∃ t1, foobar_tree.insert "foo".toList 3 = some t1 ∧ LabelsNonEmpty t1.root :=
  ⟨foobar_tree_labels, labels_never_empty.1 foobar_tree "foo".toList 3 foobar_tree_labels⟩

/-! ## `insert` and the stored values -/

/-- The tail of `insert` is within the frame of the call. -/
theorem insert_finish_frame (key : Key) (value : Value) (node : Node) (key_pos : Nat) :
    Frame value node (insert_finish key value node key_pos) := by
  unfold insert_finish
  split
  · exact Frame.same node
  · split
    · exact Frame.same node
    · cases node with
      | mk cs l x => exact Frame.add_leaf cs l x _

/-- The walk of `insert` is within the frame of the call. -/
theorem insert_walk_frame (key : Key) (value : Value) :
    ∀ (fuel : Nat) (node : Node) (key_pos : Nat) (r : Node),
      insert_walk key value fuel node key_pos = some r → Frame value node r := by
  intro fuel
  induction fuel with
  | zero => intro node key_pos r h; simp [insert_walk] at h
  | succ fuel ih =>
    intro node key_pos r h
    unfold insert_walk at h
    split at h
    · split at h
      · obtain rfl := Option.some.inj h
        exact insert_finish_frame key value node key_pos
      · rename_i i e p hscan
        obtain ⟨e0, h0, hcases⟩ := insert_scan_spec key key_pos node.children i e p hscan
        split at h
        · exact absurd h (by simp)
        · rename_i next hnext
          obtain rfl := Option.some.inj h
          have hnext1 := ih e.dest p next hnext
          have hdest : Frame value e0.dest next := by
            rcases hcases with ⟨_, rfl, _⟩ | ⟨_, _, rfl, _⟩
            · exact hnext1
            · exact Frame.split _ e0.dest next hnext1
          cases node with
          | mk cs l x => exact Frame.child cs l x i e0 e.part next h0 hdest
    · obtain rfl := Option.some.inj h
      exact insert_finish_frame key value node key_pos

/-- A member of a list is still a member after another position is overwritten. -/
theorem mem_set_or_eq_of_mem {α : Type} (cs : List α) (i : Nat) (e new a : α)
    (hi : cs[i]? = some e) (ha : a ∈ cs) : a ∈ cs.set i new ∨ a = e := by
  obtain ⟨j, hj⟩ := List.mem_iff_getElem?.1 ha
  by_cases hij : i = j
  · subst hij
    rw [hi] at hj
    exact Or.inr (Option.some.inj hj).symm
  · left
    apply List.mem_iff_getElem?.2
    refine ⟨j, ?_⟩
    rw [List.getElem?_set, if_neg hij]
    exact hj

/-- Within a frame every node of the old subtree is found in the new subtree with the same
`is_leaf` and the same `value`. -/
theorem Frame.keeps_nodes {v : Value} {old new : Node} (h : Frame v old new) :
    ∀ (labels : Key) (n : Node), DownPath old labels n →
      ∃ labels1 n1, DownPath new labels1 n1 ∧ n1.is_leaf = n.is_leaf ∧ n1.value = n.value := by
  induction h with
  | same n0 => intro labels n hp; exact ⟨labels, n, hp, rfl, rfl⟩
  | add_leaf cs l x s =>
    intro labels n hp
    cases hp with
    | here => exact ⟨[], _, DownPath.here _, rfl, rfl⟩
    | step _ e labels0 _ he hrest =>
      exact ⟨_, n, DownPath.step _ e labels0 n (List.mem_append_left _ he) hrest, rfl, rfl⟩
  | child cs l x i e s d hi _ ih =>
    intro labels n hp
    cases hp with
    | here => exact ⟨[], _, DownPath.here _, rfl, rfl⟩
    | step _ e1 labels0 _ he hrest =>
      have hset : (⟨s, d⟩ : Edge Node) ∈ cs.set i ⟨s, d⟩ := by
        apply List.mem_iff_getElem?.2
        refine ⟨i, ?_⟩
        rw [List.getElem?_set]
        have := (List.getElem?_eq_some.1 hi).1
        simp [this]
      rcases mem_set_or_eq_of_mem cs i e ⟨s, d⟩ e1 hi he with hmem | heq
      · exact ⟨_, n, DownPath.step _ e1 labels0 n hmem hrest, rfl, rfl⟩
      · subst heq
        obtain ⟨labels1, n1, hp1, hl, hv⟩ := ih labels0 n hrest
        exact ⟨_, n1, DownPath.step _ ⟨s, d⟩ labels1 n1 hset hp1, hl, hv⟩
  | split s d d1 _ ih =>
    intro labels n hp
    exact ih (s ++ labels) n
      (DownPath.step _ ⟨s, d⟩ labels n (List.mem_singleton.2 rfl) hp)

/-- The leaf values of a node, by its fields. -/
theorem Node.leaf_values_mk (cs : List (Edge Node)) (l : Bool) (x : Value) :
    (Node.mk cs l x).leaf_values = (if l then [x] else []) ++ Node.leaf_values_edges cs := by
  simp [Node.leaf_values]

/-- The leaf values below a concatenation of edge lists. -/
theorem Node.leaf_values_edges_append (a b : List (Edge Node)) :
    Node.leaf_values_edges (a ++ b) = Node.leaf_values_edges a ++ Node.leaf_values_edges b := by
  induction a with
  | nil => simp [Node.leaf_values_edges]
  | cons e rest ih => simp [Node.leaf_values_edges, ih]

/-- Overwriting child `i`: the leaf values are those before `i`, those of the new child and
those after `i`. -/
theorem Node.leaf_values_edges_set (cs : List (Edge Node)) (i : Nat) (e0 new : Edge Node)
    (hi : cs[i]? = some e0) :
    Node.leaf_values_edges cs =
        Node.leaf_values_edges (cs.take i) ++ e0.dest.leaf_values
          ++ Node.leaf_values_edges (cs.drop (i + 1)) ∧
    Node.leaf_values_edges (cs.set i new) =
        Node.leaf_values_edges (cs.take i) ++ new.dest.leaf_values
          ++ Node.leaf_values_edges (cs.drop (i + 1)) := by
  induction cs generalizing i with
  | nil => simp at hi
  | cons c rest ih =>
    cases i with
    | zero =>
      have : c = e0 := by simpa using hi
      subst this
      simp [Node.leaf_values_edges]
    | succ j =>
      have hj : rest[j]? = some e0 := by simpa using hi
      obtain ⟨h1, h2⟩ := ih j hj
      constructor
      · simp only [List.take_succ_cons, List.drop_succ_cons, Node.leaf_values_edges]
        rw [h1]; simp [List.append_assoc]
      · simp only [List.set_cons_succ, List.take_succ_cons, List.drop_succ_cons,
          Node.leaf_values_edges]
        rw [h2]; simp [List.append_assoc]

/-- The tail of `insert` leaves the leaf values as they are or adds `value` once. -/
theorem insert_finish_leaf_values (key : Key) (value : Value) (node : Node) (key_pos : Nat) :
    ((insert_finish key value node key_pos).leaf_values : Multiset Value) = node.leaf_values ∨
    ((insert_finish key value node key_pos).leaf_values : Multiset Value)
      = value ::ₘ (node.leaf_values : Multiset Value) := by
  unfold insert_finish
  split
  · exact Or.inl rfl
  · split
    · exact Or.inl rfl
    · right
      cases node with
      | mk cs l x =>
        simp only [Node.children, Node.is_leaf, Node.value, Node.leaf_values_mk,
          Node.leaf_values_edges_append, Node.leaf_values_edges, List.append_nil]
        rw [Multiset.cons_coe, Multiset.coe_eq_coe]
        rw [← List.append_assoc]
        exact List.perm_append_singleton _ _

/-- The walk of `insert` leaves the leaf values as they are or adds `value` once. -/
theorem insert_walk_leaf_values (key : Key) (value : Value) :
    ∀ (fuel : Nat) (node : Node) (key_pos : Nat) (r : Node),
      insert_walk key value fuel node key_pos = some r →
      (r.leaf_values : Multiset Value) = node.leaf_values ∨
      (r.leaf_values : Multiset Value) = value ::ₘ (node.leaf_values : Multiset Value) := by
  intro fuel
  induction fuel with
  | zero => intro node key_pos r h; simp [insert_walk] at h
  | succ fuel ih =>
    intro node key_pos r h
    unfold insert_walk at h
    split at h
    · split at h
      · obtain rfl := Option.some.inj h
        exact insert_finish_leaf_values key value node key_pos
      · rename_i i e p hscan
        obtain ⟨e0, h0, hcases⟩ := insert_scan_spec key key_pos node.children i e p hscan
        split at h
        · exact absurd h (by simp)
        · rename_i next hnext
          obtain rfl := Option.some.inj h
          have hnext1 := ih e.dest p next hnext
          have hdest : e.dest.leaf_values = e0.dest.leaf_values := by
            rcases hcases with ⟨_, rfl, _⟩ | ⟨_, _, rfl, _⟩
            · rfl
            · simp [Node.leaf_values_mk, Node.leaf_values_edges]
          rw [hdest] at hnext1
          cases node with
          | mk cs l x =>
            simp only [Node.children, Node.is_leaf, Node.value, Node.leaf_values_mk] at h0 ⊢
            obtain ⟨h1, h2⟩ := Node.leaf_values_edges_set cs i e0 ⟨e.part, next⟩ h0
            rw [h1, h2]
            simp only [← Multiset.coe_add]
            rcases hnext1 with hn | hn
            · left; rw [hn]
            · right; rw [hn]
              simp only [Multiset.add_cons, Multiset.cons_add]
    · obtain rfl := Option.some.inj h
      exact insert_finish_leaf_values key value node key_pos

/-- C20. `insert` never touches stored values: for every tree, key and value `v`, `insert`
returns a tree within the frame of the call (the old nodes in place with their `is_leaf` and
`value`, plus only new leaves holding `v` and new non-leaf nodes with the default value from
splits), every node of the old tree is found in the new tree with the same `is_leaf` and
`value`, and the multiset of the values held by leaf nodes is the old one or the old one plus
`v` once. -/
theorem insert_keeps_stored_values (t : RadixTree) (k : Key) (v : Value) :
    ∃ t1, t.insert k v = some t1 ∧ Frame v t.root t1.root ∧
      (∀ (labels : Key) (n : Node), DownPath t.root labels n →
        ∃ labels1 n1, DownPath t1.root labels1 n1 ∧ n1.is_leaf = n.is_leaf ∧
          n1.value = n.value) ∧
      ((t1.root.leaf_values : Multiset Value) = t.root.leaf_values ∨
        (t1.root.leaf_values : Multiset Value) = v ::ₘ (t.root.leaf_values : Multiset Value)) := by
  obtain ⟨t1, h1⟩ := insert_returns t k v
  have hw : t1 = t ∨ insert_walk k v (k.length + t.root.size) t.root 0 = some t1.root := by
    unfold RadixTree.insert at h1
    split at h1
    · exact Or.inl (Option.some.inj h1).symm
    · right
      cases hw : insert_walk k v (k.length + t.root.size) t.root 0 with
      | none => rw [hw] at h1; exact absurd h1 (by simp)
      | some r =>
        rw [hw] at h1
        obtain rfl := Option.some.inj h1
        rfl
  rcases hw with rfl | hw
  · exact ⟨t1, h1, Frame.same _, fun labels n hp => ⟨labels, n, hp, rfl, rfl⟩, Or.inl rfl⟩
  · have hf := insert_walk_frame k v _ t.root 0 t1.root hw
    exact ⟨t1, h1, hf, hf.keeps_nodes, insert_walk_leaf_values k v _ t.root 0 t1.root hw⟩

/-! ## Lookup and the path spelled by the key -/

/-- The walk of `find_node`, by the fields of the node. -/
theorem find_node_walk_eq (key : Key) (leaf_only : Bool) (node : Node) (key_pos : Nat) :
    find_node_walk key leaf_only node key_pos =
      if key_pos < key.length then find_node_scan key leaf_only node.children key_pos
      else find_node_result key leaf_only node key_pos := by
  cases node with
  | mk cs l x => simp [find_node_walk, Node.children]

/-- The remaining key after a part that is a prefix of it. -/
theorem drop_eq_append_of_prefix (key part : Key) (key_pos : Nat)
    (h : part <+: key.drop key_pos) :
    key.drop key_pos = part ++ key.drop (key_pos + part.length) := by
  obtain ⟨t, ht⟩ := h
  have : key.drop (key_pos + part.length) = t := by
    rw [← List.drop_drop, ← ht]
    simp
  rw [this, ht]

mutual
/-- Whatever the tree, a node returned by the walk of `find_node` from a position inside the
key ends a downward path that spells the remaining key, and is a leaf if leaves are asked. -/
theorem find_node_walk_sound (key : Key) (leaf_only : Bool) :
    ∀ (node : Node) (key_pos : Nat) (m : Node), key_pos ≤ key.length →
      find_node_walk key leaf_only node key_pos = some m →
      DownPath node (key.drop key_pos) m ∧ (leaf_only = true → m.is_leaf = true)
  | .mk children is_leaf value, key_pos, m, hpos, h => by
    unfold find_node_walk at h
    split at h
    · obtain ⟨e, labels, he, hp, hd, hleaf⟩ :=
        find_node_scan_sound key leaf_only children key_pos m hpos h
      rw [hd]
      exact ⟨DownPath.step _ e labels m he hp, hleaf⟩
    · unfold find_node_result at h
      split at h
      · exact absurd h (by simp)
      · split at h
        · rename_i hge hl
          obtain rfl := Option.some.inj h
          have hnil : key.drop key_pos = [] := List.drop_eq_nil_iff.2 (by omega)
          rw [hnil]
          refine ⟨DownPath.here _, fun hlo => ?_⟩
          subst hlo
          simpa using hl
        · exact absurd h (by simp)
/-- The edge loop of `find_node`: a node it returns lies below one of the edges, whose part
starts the remaining key. -/
theorem find_node_scan_sound (key : Key) (leaf_only : Bool) :
    ∀ (children : List (Edge Node)) (key_pos : Nat) (m : Node), key_pos ≤ key.length →
      find_node_scan key leaf_only children key_pos = some m →
      ∃ e labels, e ∈ children ∧ DownPath e.dest labels m ∧
        key.drop key_pos = e.part ++ labels ∧ (leaf_only = true → m.is_leaf = true)
  | [], _, m, _, h => by
    unfold find_node_scan at h
    exact absurd h (by simp)
  | edge :: rest, key_pos, m, hpos, h => by
    unfold find_node_scan at h
    split at h
    · obtain ⟨e, labels, he, hp, hd, hleaf⟩ :=
        find_node_scan_sound key leaf_only rest key_pos m hpos h
      exact ⟨e, labels, List.mem_cons_of_mem _ he, hp, hd, hleaf⟩
    · rename_i hm
      have hm1 : prefix_matches key key_pos edge.part 0 = true := by simpa using hm
      have hpre : edge.part <+: key.drop key_pos := by
        have := (prefix_matches_iff key key_pos edge.part 0 hpos (Nat.zero_le _)).1 hm1
        simpa using this
      obtain ⟨hp, hleaf⟩ := find_node_walk_sound key leaf_only edge.dest
        (key_pos + edge.part.length) m
        (prefix_matches_length_le key key_pos edge.part hpos hm1) h
      exact ⟨edge, _, List.mem_cons_self _ _, hp,
        drop_eq_append_of_prefix key edge.part key_pos hpre, hleaf⟩
end

/-- Two non-empty prefixes of the same list start with the same symbol. -/
theorem head?_eq_of_prefix (a b rest : Key) (ha : a ≠ []) (hb : b ≠ [])
    (h1 : a <+: rest) (h2 : b <+: rest) : a.head? = b.head? := by
  obtain ⟨ta, rfl⟩ := h1
  obtain ⟨tb, hb2⟩ := h2
  cases a with
  | nil => exact absurd rfl ha
  | cons x xs =>
    cases b with
    | nil => exact absurd rfl hb
    | cons y ys =>
      simp only [List.cons_append, List.cons.injEq] at hb2
      simp [hb2.1]

/-- With non-empty labels that differ at their first symbol, the edge loop of `find_node`
follows the one edge whose part starts the remaining key. -/
theorem find_node_scan_follows (key : Key) (leaf_only : Bool) (key_pos : Nat)
    (hpos : key_pos ≤ key.length) (e : Edge Node) (hpre : e.part <+: key.drop key_pos) :
    ∀ (children : List (Edge Node)), e ∈ children →
      (∀ c, c ∈ children → c.part ≠ []) →
      children.Pairwise (fun e1 e2 => e1.part.head? ≠ e2.part.head?) →
      find_node_scan key leaf_only children key_pos
        = find_node_walk key leaf_only e.dest (key_pos + e.part.length) := by
  intro children
  induction children with
  | nil => intro he; exact absurd he (by simp)
  | cons c rest ih =>
    intro he hne hpw
    have hme : prefix_matches key key_pos e.part 0 = true :=
      (prefix_matches_iff key key_pos e.part 0 hpos (Nat.zero_le _)).2 (by simpa using hpre)
    unfold find_node_scan
    rcases List.mem_cons.1 he with heq | hrest
    · subst heq
      simp [hme]
    · have hc : prefix_matches key key_pos c.part 0 = false := by
        cases hcm : prefix_matches key key_pos c.part 0 with
        | false => rfl
        | true =>
          have hcpre : c.part <+: key.drop key_pos := by
            have := (prefix_matches_iff key key_pos c.part 0 hpos (Nat.zero_le _)).1 hcm
            simpa using this
          have hhead := head?_eq_of_prefix c.part e.part (key.drop key_pos)
            (hne c (List.mem_cons_self _ _)) (hne e he) hcpre hpre
          exact absurd hhead ((List.pairwise_cons.1 hpw).1 e hrest)
      simp only [hc, Bool.not_false, if_true]
      exact ih hrest (fun c1 hc1 => hne c1 (List.mem_cons_of_mem _ hc1))
        (List.pairwise_cons.1 hpw).2

/-- The children of a node with disjoint siblings differ pairwise at their first symbol. -/
theorem SiblingsDisjoint.pairwise {n : Node} (h : SiblingsDisjoint n) :
    n.children.Pairwise (fun e1 e2 => e1.part.head? ≠ e2.part.head?) := by
  cases h with
  | mk cs l x h1 h2 => exact h1

/-- The children of a node with disjoint siblings have disjoint siblings. -/
theorem SiblingsDisjoint.dest_siblings {n : Node} (h : SiblingsDisjoint n) :
    ∀ e, e ∈ n.children → SiblingsDisjoint e.dest := by
  cases h with
  | mk cs l x h1 h2 => exact h2

/-- With non-empty labels and disjoint siblings, the walk of `find_node` from a position
inside the key returns the node at the end of a downward path that spells the remaining
key, when that node is a leaf or all nodes are asked. -/
theorem find_node_walk_complete (key : Key) (leaf_only : Bool) :
    ∀ (node : Node) (labels : Key) (m : Node), DownPath node labels m →
      LabelsNonEmpty node → SiblingsDisjoint node →
      ∀ key_pos, key_pos ≤ key.length → key.drop key_pos = labels →
        (leaf_only = false ∨ m.is_leaf = true) →
        find_node_walk key leaf_only node key_pos = some m := by
  intro node labels m hp
  induction hp with
  | here n =>
    intro _ _ key_pos hpos hd hleaf
    have hge : ¬ key_pos < key.length := by
      have := congrArg List.length hd
      simp only [List.length_drop, List.length_nil] at this
      omega
    rw [find_node_walk_eq, if_neg hge]
    unfold find_node_result
    rw [if_neg hge]
    rcases hleaf with h | h <;> simp [h]
  | step n e labels0 m he _ ih =>
    intro hl hs key_pos hpos hd hleaf
    have hne := hl.parts e he
    have hpre : e.part <+: key.drop key_pos := ⟨labels0, hd.symm⟩
    have hlt : key_pos < key.length := by
      have := congrArg List.length hd
      simp only [List.length_drop, List.length_append] at this
      have : 0 < e.part.length := List.length_pos.2 hne
      omega
    have hlen : key_pos + e.part.length ≤ key.length := by
      have := hpre.length_le
      simp only [List.length_drop] at this
      omega
    rw [find_node_walk_eq, if_pos hlt,
      find_node_scan_follows key leaf_only key_pos hpos e hpre n.children he hl.parts
        hs.pairwise]
    apply ih (hl.dest_labels e he) (hs.dest_siblings e he) (key_pos + e.part.length) hlen _ hleaf
    have h1 := drop_eq_append_of_prefix key e.part key_pos hpre
    rw [hd] at h1
    exact (List.append_cancel_left h1).symm

/-- C19. Lookup finds exactly the node spelled by the key: in a tree whose edge labels are
non-empty and whose sibling edge labels differ at their first symbol, for every non-empty
key and node `n`, `find_node(key, false)` returns `n` exactly when the edge labels on a
downward path from the root to `n` concatenate to `key`, and `find_node(key, true)` returns
`n` exactly when moreover `n` is a leaf. -/
theorem find_node_finds_spelled_node (t : RadixTree) (key : Key) (n : Node)
    (hl : LabelsNonEmpty t.root) (hs : SiblingsDisjoint t.root) (hk : key ≠ []) :
    (t.find_node key false = some n ↔ DownPath t.root key n) ∧
    (t.find_node key true = some n ↔ DownPath t.root key n ∧ n.is_leaf = true) := by
  have hne : ¬ key.isEmpty = true := by simpa [List.isEmpty_iff] using hk
  unfold RadixTree.find_node
  simp only [if_neg hne]
  constructor
  · constructor
    · intro h
      have := (find_node_walk_sound key false t.root 0 n (Nat.zero_le _) h).1
      simpa using this
    · intro h
      exact find_node_walk_complete key false t.root key n h hl hs 0 (Nat.zero_le _)
        (List.drop_zero _) (Or.inl rfl)
  · constructor
    · intro h
      obtain ⟨h1, h2⟩ := find_node_walk_sound key true t.root 0 n (Nat.zero_le _) h
      exact ⟨by simpa using h1, h2 rfl⟩
    · rintro ⟨h1, h2⟩
      exact find_node_walk_complete key true t.root key n h1 hl hs 0 (Nat.zero_le _)
        (List.drop_zero _) (Or.inr h2)

/-- The tree holding `"banana"` and `"bandana"` has non-empty labels. -/
theorem banana_tree_labels : LabelsNonEmpty banana_tree.root := by
  obtain ⟨t1, h1, h2⟩ := insert_all_labels banana_inserts RadixTree.empty
    (LabelsNonEmpty.mk _ _ _ (fun e he => absurd he (by simp)) (fun e he => absurd he (by simp)))
  have h3 : RadixTree.empty.insert_all banana_inserts = some banana_tree := rfl
  rw [h3] at h1
  obtain rfl := Option.some.inj h1
  exact h2

/-- A node without children has disjoint siblings. -/
theorem siblings_disjoint_of_no_children (l : Bool) (x : Value) :
    SiblingsDisjoint (.mk [] l x) :=
  SiblingsDisjoint.mk _ _ _ List.Pairwise.nil (fun e he => absurd he (by simp))

/-- A branching node over two childless nodes, with labels that differ at their first
symbol, under a single root edge: its siblings are disjoint. -/
theorem siblings_disjoint_fork (p r1 r2 : Key) (v1 v2 : Value) (hd : r1.head? ≠ r2.head?) :
    SiblingsDisjoint
      (.mk [⟨p, .mk [⟨r1, .mk [] true v1⟩, ⟨r2, .mk [] true v2⟩] false 0⟩] false 0) := by
  refine SiblingsDisjoint.mk _ _ _ (List.pairwise_singleton _ _) ?_
  intro e he
  rw [List.mem_singleton.1 he]
  refine SiblingsDisjoint.mk _ _ _ ?_ ?_
  · simp only [List.pairwise_cons, List.mem_singleton]
    exact ⟨fun a ha => by rw [ha]; exact hd, fun a ha => absurd ha (by simp),
      List.Pairwise.nil⟩
  · intro e1 he1
    rcases List.mem_cons.1 he1 with h | h
    · rw [h]; exact siblings_disjoint_of_no_children _ _
    · rw [List.mem_singleton.1 h]; exact siblings_disjoint_of_no_children _ _

/-- C19 at a concrete input: the key `"banana"` and its leaf in the tree holding `"banana"`
and `"bandana"`. -/
theorem find_node_finds_spelled_node_witness :
    (LabelsNonEmpty banana_tree.root ∧ SiblingsDisjoint banana_tree.root ∧
      "banana".toList ≠ []) ∧
    (banana_tree.find_node "banana".toList false = some (.mk [] true 1) ↔
      DownPath banana_tree.root "banana".toList (.mk [] true 1)) ∧
    (banana_tree.find_node "banana".toList true = some (.mk [] true 1) ↔
      DownPath banana_tree.root "banana".toList (.mk [] true 1) ∧
        (Node.mk [] true 1).is_leaf = true) :=
  ⟨⟨banana_tree_labels, siblings_disjoint_fork _ _ _ 1 2 (by decide), by decide⟩,
    find_node_finds_spelled_node banana_tree "banana".toList (.mk [] true 1)
      banana_tree_labels (siblings_disjoint_fork _ _ _ 1 2 (by decide)) (by decide)⟩

/-! ## Two keys that share a proper prefix -/

/-- When the remainders of the two strings share `c` and then differ at their next symbol,
`common_prefix` is the length of `c`. -/
theorem common_prefix_of_diverge (c x y b : Key) (q : Nat) (hq : q ≤ b.length)
    (hb : b.drop q = c ++ y) (hd : x.head? ≠ y.head?) :
    common_prefix (c ++ x) 0 b q = c.length := by
  obtain ⟨h1, h2, h3⟩ := common_prefix_props (c ++ x) b 0 q (Nat.zero_le _) hq
  have hlen : b.length - q = c.length + y.length := by
    have := congrArg List.length hb
    simpa using this
  have hb1 : ∀ i, b[q + i]? = (c ++ y)[i]? := by
    intro i; rw [← hb, List.getElem?_drop]
  simp only [Nat.zero_add, hb1] at h2 h3
  simp only [List.length_append, Nat.sub_zero, hlen] at h1 h3
  have hmin1 : min (c.length + x.length) (c.length + y.length) ≤ c.length + x.length :=
    Nat.min_le_left _ _
  have hmin2 : min (c.length + x.length) (c.length + y.length) ≤ c.length + y.length :=
    Nat.min_le_right _ _
  have hle : common_prefix (c ++ x) 0 b q ≤ c.length := by
    by_contra hgt
    have := h2 c.length (by omega)
    rw [List.getElem?_append_right (le_refl _), List.getElem?_append_right (le_refl _)] at this
    simp only [Nat.sub_self] at this
    rw [← List.head?_eq_getElem?, ← List.head?_eq_getElem?] at this
    exact hd this
  have hge : c.length ≤ common_prefix (c ++ x) 0 b q := by
    by_contra hlt
    have hlt1 : common_prefix (c ++ x) 0 b q < c.length := by omega
    rcases h3 with h3 | h3
    · have hxy : x.length = 0 ∧ y.length = 0 ∨ 0 < x.length ∨ 0 < y.length := by omega
      rcases hxy with ⟨hx, hy⟩ | hxy
      · have ex : x = [] := List.length_eq_zero.1 hx
        have ey : y = [] := List.length_eq_zero.1 hy
        rw [ex, ey] at hd
        exact hd rfl
      · omega
    · rw [List.getElem?_append_left hlt1, List.getElem?_append_left hlt1] at h3
      exact h3 rfl
  omega

/-- When the part shares `c` with the remaining key and then goes on with a symbol the key
does not have there, it fails `has_prefix`. -/
theorem has_prefix_false_of_diverge (c x y b : Key) (q : Nat) (hb : b.drop q = c ++ y)
    (hx : x ≠ []) (hd : x.head? ≠ y.head?) : has_prefix b q (c ++ x) = false := by
  cases h : has_prefix b q (c ++ x) with
  | false => rfl
  | true =>
    have hpre := (has_prefix_iff b q (c ++ x)).1 h
    rw [hb, List.prefix_append_right_inj] at hpre
    have := head?_eq_of_prefix x x y hx hx hpre (by
      obtain ⟨t, ht⟩ := hpre
      exact ⟨t, ht⟩)
    obtain ⟨t, rfl⟩ := hpre
    cases x with
    | nil => exact absurd rfl hx
    | cons a as => simp at hd

/-- The first `insert` into the empty tree appends one leaf edge labelled with the key. -/
theorem insert_into_empty (k : Key) (v : Value) (hk : k ≠ []) :
    RadixTree.empty.insert k v = some ⟨.mk [⟨k, .mk [] true v⟩] false 0⟩ := by
  have hne : ¬ k.isEmpty = true := by simpa [List.isEmpty_iff] using hk
  have hlen : 0 < k.length := List.length_pos.2 hk
  unfold RadixTree.insert
  rw [if_neg hne]
  have hfuel : k.length + RadixTree.empty.root.size = k.length + 1 := by
    simp [RadixTree.empty, Node.fresh, Node.size, Node.sizeEdges]
  rw [hfuel]
  simp only [insert_walk, RadixTree.empty, Node.fresh, Node.children, insert_scan, if_pos hlen]
  have h1 : ¬ 0 > k.length := by omega
  have h2 : ¬ 0 = k.length := by omega
  simp [insert_finish, h1, h2, substr_from, Node.children, Node.is_leaf, Node.value]

/-- The second `insert`, of a key that shares the proper prefix `p` with the only stored
key: the edge is split at `p` and the new leaf is appended below the split. -/
theorem insert_second_key (p r1 r2 : Key) (v1 v2 : Value) (hp : p ≠ []) (h1 : r1 ≠ [])
    (h2 : r2 ≠ []) (hd : r1.head? ≠ r2.head?) :
    RadixTree.insert ⟨.mk [⟨p ++ r1, .mk [] true v1⟩] false 0⟩ (p ++ r2) v2 =
      some ⟨.mk [⟨p, .mk [⟨r1, .mk [] true v1⟩, ⟨r2, .mk [] true v2⟩] false 0⟩] false 0⟩ := by
  have hk : ¬ (p ++ r2).isEmpty = true := by simp [List.isEmpty_iff, hp]
  have hpl : 0 < p.length := List.length_pos.2 hp
  have hr2 : 0 < r2.length := List.length_pos.2 h2
  have hfuel : (p ++ r2).length + (Node.mk [⟨p ++ r1, .mk [] true v1⟩] false 0).size
      = ((p ++ r2).length + 0) + 1 + 1 := by
    simp [Node.size, Node.sizeEdges]
  have hdrop0 : (p ++ r2).drop 0 = p ++ r2 := rfl
  have hdropp : (p ++ r2).drop p.length = [] ++ r2 := by simp
  have hA : has_prefix (p ++ r2) 0 (p ++ r1) = false :=
    has_prefix_false_of_diverge p r1 r2 (p ++ r2) 0 hdrop0 h1 hd
  have hB : common_prefix (p ++ r1) 0 (p ++ r2) 0 = p.length :=
    common_prefix_of_diverge p r1 r2 (p ++ r2) 0 (Nat.zero_le _) hdrop0 hd
  have hC : has_prefix (p ++ r2) p.length r1 = false :=
    has_prefix_false_of_diverge [] r1 r2 (p ++ r2) p.length hdropp h1 hd
  have hD : common_prefix r1 0 (p ++ r2) p.length = 0 :=
    common_prefix_of_diverge [] r1 r2 (p ++ r2) p.length (by simp) hdropp hd
  have hlt0 : 0 < (p ++ r2).length := by simp; omega
  have hlt1 : 0 + p.length < (p ++ r2).length := by simp; omega
  have hscan0 : insert_scan (p ++ r2) 0 [⟨p ++ r1, .mk [] true v1⟩]
      = some (0, ⟨p, .mk [⟨r1, .mk [] true v1⟩] false 0⟩, 0 + p.length) := by
    simp [insert_scan, hA, hB, substr, substr_from, Nat.ne_of_gt hpl]
  have hscan1 : insert_scan (p ++ r2) (0 + p.length) [⟨r1, .mk [] true v1⟩] = none := by
    simp [insert_scan, hC, hD]
  unfold RadixTree.insert
  rw [if_neg hk]
  simp only [hfuel]
  rw [insert_walk]
  simp only [if_pos hlt0, Node.children, hscan0]
  rw [insert_walk]
  simp only [if_pos hlt1, Node.children, hscan1]
  have h3 : ¬ 0 + p.length > (p ++ r2).length := by omega
  have h4 : ¬ 0 + p.length = (p ++ r2).length := by omega
  simp [insert_finish, h3, h4, h2, substr_from, Node.children, Node.is_leaf, Node.value]

/-- C12. Two-key split structure: for keys `p ++ r1` and `p ++ r2` whose longest common
prefix `p` is non-empty and shorter than both (`r1`, `r2` non-empty with different first
symbols), inserting them in this order into the empty tree returns the tree whose root has
the single edge `p` to a non-leaf node with exactly the two child edges `r1` and `r2`, to
childless leaves holding `v1` and `v2`; both keys exist there with their values. -/
theorem two_key_split (p r1 r2 : Key) (v1 v2 : Value) (hp : p ≠ []) (h1 : r1 ≠ [])
    (h2 : r2 ≠ []) (hd : r1.head? ≠ r2.head?) :
    ∃ t, RadixTree.empty.insert_all [(p ++ r1, v1), (p ++ r2, v2)] = some t ∧
      t = ⟨.mk [⟨p, .mk [⟨r1, .mk [] true v1⟩, ⟨r2, .mk [] true v2⟩] false 0⟩] false 0⟩ ∧
      t.exists (p ++ r1) = true ∧ t.exists (p ++ r2) = true ∧
      t.get_value (p ++ r1) = v1 ∧ t.get_value (p ++ r2) = v2 := by
  have hk1 : p ++ r1 ≠ [] := by simp [hp]
  have hk2 : p ++ r2 ≠ [] := by simp [hp]
  have hins : RadixTree.empty.insert_all [(p ++ r1, v1), (p ++ r2, v2)] =
      some ⟨.mk [⟨p, .mk [⟨r1, .mk [] true v1⟩, ⟨r2, .mk [] true v2⟩] false 0⟩] false 0⟩ := by
    simp only [RadixTree.insert_all, insert_into_empty (p ++ r1) v1 hk1, Option.some_bind,
      insert_second_key p r1 r2 v1 v2 hp h1 h2 hd]
  refine ⟨_, hins, rfl, ?_⟩
  have hl : LabelsNonEmpty
      (Node.mk [⟨p, .mk [⟨r1, .mk [] true v1⟩, ⟨r2, .mk [] true v2⟩] false 0⟩] false 0) := by
    obtain ⟨t1, e1, e2⟩ := insert_all_labels [(p ++ r1, v1), (p ++ r2, v2)] RadixTree.empty
      (LabelsNonEmpty.mk _ _ _ (fun e he => absurd he (by simp))
        (fun e he => absurd he (by simp)))
    rw [hins] at e1
    obtain rfl := Option.some.inj e1
    exact e2
  have hs := siblings_disjoint_fork p r1 r2 v1 v2 hd
  have hpath1 : DownPath
      (Node.mk [⟨p, .mk [⟨r1, .mk [] true v1⟩, ⟨r2, .mk [] true v2⟩] false 0⟩] false 0)
      (p ++ r1) (.mk [] true v1) := by
    have hstep := DownPath.step (.mk [⟨r1, .mk [] true v1⟩, ⟨r2, .mk [] true v2⟩] false 0)
      ⟨r1, .mk [] true v1⟩ [] _ (List.mem_cons_self _ _) (DownPath.here _)
    have := DownPath.step
      (.mk [⟨p, .mk [⟨r1, .mk [] true v1⟩, ⟨r2, .mk [] true v2⟩] false 0⟩] false 0)
      ⟨p, .mk [⟨r1, .mk [] true v1⟩, ⟨r2, .mk [] true v2⟩] false 0⟩ _ _
      (List.mem_singleton.2 rfl) hstep
    simpa using this
  have hpath2 : DownPath
      (Node.mk [⟨p, .mk [⟨r1, .mk [] true v1⟩, ⟨r2, .mk [] true v2⟩] false 0⟩] false 0)
      (p ++ r2) (.mk [] true v2) := by
    have hstep := DownPath.step (.mk [⟨r1, .mk [] true v1⟩, ⟨r2, .mk [] true v2⟩] false 0)
      ⟨r2, .mk [] true v2⟩ [] _ (List.mem_cons_of_mem _ (List.mem_singleton.2 rfl))
      (DownPath.here _)
    have := DownPath.step
      (.mk [⟨p, .mk [⟨r1, .mk [] true v1⟩, ⟨r2, .mk [] true v2⟩] false 0⟩] false 0)
      ⟨p, .mk [⟨r1, .mk [] true v1⟩, ⟨r2, .mk [] true v2⟩] false 0⟩ _ _
      (List.mem_singleton.2 rfl) hstep
    simpa using this
  have hf1 := find_node_walk_complete (p ++ r1) true _ _ _ hpath1 hl hs 0 (Nat.zero_le _)
    (List.drop_zero _) (Or.inr rfl)
  have hf2 := find_node_walk_complete (p ++ r2) true _ _ _ hpath2 hl hs 0 (Nat.zero_le _)
    (List.drop_zero _) (Or.inr rfl)
  have e1 : ¬ (p ++ r1).isEmpty = true := by simp [List.isEmpty_iff, hp]
  have e2 : ¬ (p ++ r2).isEmpty = true := by simp [List.isEmpty_iff, hp]
  simp only [RadixTree.exists, RadixTree.get_value, RadixTree.find_node, if_neg e1, if_neg e2,
    hf1, hf2, Option.isSome_some, Node.value, and_self]

/-- C12 at the keys of `main`: `"banana"` then `"bandana"`, which share `"ban"`. -/
theorem two_key_split_witness :
    ("ban".toList ≠ [] ∧ "ana".toList ≠ [] ∧ "dana".toList ≠ [] ∧
      "ana".toList.head? ≠ "dana".toList.head?) ∧
    ∃ t, RadixTree.empty.insert_all
        [("ban".toList ++ "ana".toList, 1), ("ban".toList ++ "dana".toList, 2)] = some t ∧
      t = ⟨.mk [⟨"ban".toList,
            .mk [⟨"ana".toList, .mk [] true 1⟩, ⟨"dana".toList, .mk [] true 2⟩] false 0⟩]
          false 0⟩ ∧
      t.exists ("ban".toList ++ "ana".toList) = true ∧
      t.exists ("ban".toList ++ "dana".toList) = true ∧
      t.get_value ("ban".toList ++ "ana".toList) = 1 ∧
      t.get_value ("ban".toList ++ "dana".toList) = 2 :=
  ⟨⟨by decide, by decide, by decide, by decide⟩,
    two_key_split "ban".toList "ana".toList "dana".toList 1 2 (by decide) (by decide)
      (by decide) (by decide)⟩
